import Mathlib

/-!
Verification development for the trendradar core: the batched paper
summarizer (`trendradar/ai/paper_summarizer.py`) and the Hugging Face
daily-papers extractor (`trendradar/crawler/rss/huggingface_papers.py`).

Texts are modelled as `List Char` (Python strings are sequences of code
points, and Python `len`/slicing count code points).  Python dicts are
modelled as association lists with Python's insert-or-overwrite update
(`dset`), which preserves insertion order exactly as CPython does.
The AI chat capability (`AIClient.chat` composed with JSON-reply parsing,
an external collaborator in the source) is abstracted as an oracle
`callAI : Nat → Except Unit SDict` giving, for each batch ordinal, either
a raised exception or the parsed reply mapping.
-/

/-- Whitespace as matched by Python's `\s` on the ASCII range. -/
def pws (c : Char) : Bool :=
  c = ' ' || c = '\t' || c = '\n' || c = '\r' || c = '\x0b' || c = '\x0c'

/-- One pass of `re.sub(r"\s+", " ", text)`: every maximal whitespace run
becomes a single space.  The flag records whether the previous character
was part of a whitespace run. -/
def collapseAux : Bool → List Char → List Char
  | _, [] => []
  | b, c :: rest =>
    if pws c then
      if b then collapseAux true rest else ' ' :: collapseAux true rest
    else c :: collapseAux false rest

/-- Python `str.lstrip()` (whitespace variant). -/
def lstrip (l : List Char) : List Char := l.dropWhile pws

/-- Python `str.rstrip()` (whitespace variant). -/
def rstrip : List Char → List Char
  | [] => []
  | c :: rest =>
    let r := rstrip rest
    if r.isEmpty && pws c then [] else c :: r

/-- Python `str.strip()` (whitespace variant). -/
def pystrip (l : List Char) : List Char := rstrip (lstrip l)

/-- `_strip_ws` from `paper_summarizer.py`: collapse whitespace runs to a
single space and strip both ends; empty input yields empty output. -/
def strip_ws (l : List Char) : List Char :=
  if l = [] then [] else rstrip (lstrip (collapseAux false l))

/-- Length of the Python slice `text[:m]` for a list of the given length
(`m` may be negative, Python clamps at both ends). -/
def pySliceLen (len : Nat) (m : Int) : Nat :=
  if 0 ≤ m then m.toNat else len - (-m).toNat

/-- Python slice `text[:m]`. -/
def pySlice (l : List Char) (m : Int) : List Char := l.take (pySliceLen l.length m)

/-- `_truncate_chars` from `paper_summarizer.py`. -/
def truncate_chars (text : List Char) (max_chars : Int) : List Char :=
  let t := strip_ws text
  if t = [] then []
  else if (t.length : Int) ≤ max_chars then t
  else rstrip (pySlice t max_chars)

/-- `sub.isPrefixOf l` without `BEq`: does `l` start with `sub`? -/
def leadsWith : List Char → List Char → Bool
  | [], _ => true
  | _ :: _, [] => false
  | a :: as, b :: bs => a = b && leadsWith as bs

/-- Python `str.rfind(sub)`: greatest index at which `sub` occurs, else `-1`. -/
def pyRfind (l sub : List Char) : Int :=
  match (List.range (l.length + 1)).reverse.find? (fun i => leadsWith sub (l.drop i)) with
  | some i => (i : Int)
  | none => -1

/-- The separator list of `_truncate_at_sentence`, in source order. -/
def seps : List (List Char) :=
  [". ".toList, "。".toList, "；".toList, "; ".toList, ", ".toList, "，".toList]

/-- The `for sep in [...]` loop of `_truncate_at_sentence`: first separator
whose rightmost occurrence lies past the threshold wins. -/
def sepLoop (chunk : List Char) (thr : Int) : List (List Char) → Option (List Char)
  | [] => none
  | sep :: rest =>
    let pos := pyRfind chunk sep
    if thr < pos then some (rstrip (pySlice chunk (pos + (sep.length : Int))))
    else sepLoop chunk thr rest

/-- `_truncate_at_sentence` from `paper_summarizer.py`. -/
def truncate_at_sentence (text : List Char) (max_chars : Int) : List Char :=
  let t := strip_ws text
  if t = [] then []
  else if (t.length : Int) ≤ max_chars then t
  else
    let chunk := pySlice t max_chars
    let thr := Int.fdiv max_chars 3
    match sepLoop chunk thr seps with
    | some r => r
    | none =>
      let spos := pyRfind chunk [' ']
      if thr < spos then rstrip (pySlice chunk spos) ++ "...".toList
      else rstrip chunk ++ "...".toList

/-- Python `str.replace(a, b)` for single characters. -/
def pyReplace (a b : Char) (l : List Char) : List Char :=
  l.map (fun c => if c = a then b else c)

/-- `PaperSummaryRequest` from `paper_summarizer.py`. -/
structure PaperSummaryRequest where
  key : List Char
  title : List Char
  abstract : List Char
deriving DecidableEq

/-- `BATCH_SIZE` from `paper_summarizer.py`. -/
def BATCH_SIZE : Nat := 10

/-- `FALLBACK_MAX_CHARS` from `paper_summarizer.py`. -/
def FALLBACK_MAX_CHARS : Int := 200

/-- `PaperSummarizer._fallback_summary`: abstract if non-empty after
normalization, else title, truncated at a sentence boundary. -/
def fallback_summary (r : PaperSummaryRequest) : List Char :=
  let text := if strip_ws r.abstract = [] then strip_ws r.title else strip_ws r.abstract
  if text = [] then [] else truncate_at_sentence text FALLBACK_MAX_CHARS

/-- Dict keys are strings. -/
abbrev Key := List Char

/-- Python dict lookup `d.get(k)` on the association-list model. -/
def dget {α : Type} : List (Key × α) → Key → Option α
  | [], _ => none
  | (k', v) :: rest, k => if k' = k then some v else dget rest k

/-- Python dict update `d[k] = v`: overwrite in place, else append. -/
def dset {α : Type} : List (Key × α) → Key → α → List (Key × α)
  | [], k, v => [(k, v)]
  | (k', v') :: rest, k, v =>
    if k' = k then (k', v) :: rest else (k', v') :: dset rest k v

/-- A summary mapping: identifier → short text. -/
abbrev SDict := List (Key × List Char)

/-- Normalization applied to a value read from the AI reply mapping
(lines 185–187 of `paper_summarizer.py`): `get(k, "")`, `_strip_ws`,
then replacing `\n` and `\r` by spaces. -/
def aiVal (ai : SDict) (k : Key) : List Char :=
  pyReplace '\r' ' ' (pyReplace '\n' ' ' (strip_ws ((dget ai k).getD [])))

/-- The prepared per-request payload (line 163 of `paper_summarizer.py`). -/
structure PrepItem where
  key : Key
  title : List Char
  abstract : List Char

/-- The `prep` dict of `summarize_batch` (lines 159–163). -/
def mkPrep (reqs : List PaperSummaryRequest) : List (Key × PrepItem) :=
  reqs.foldl (fun d r => dset d r.key ⟨r.key, strip_ws r.title, truncate_chars r.abstract 1200⟩) []

/-- `keys = list(prep.keys())` (line 165): request keys, first occurrence
order, deduplicated by the dict. -/
def prepKeys (reqs : List PaperSummaryRequest) : List Key :=
  (mkPrep reqs).map Prod.fst

/-- The `batch_reqs` dict of `summarize_batch` (line 171). -/
def batchReqs (reqs : List PaperSummaryRequest) (bk : List Key) :
    List (Key × PaperSummaryRequest) :=
  (reqs.filter (fun r => decide (r.key ∈ bk))).foldl (fun d r => dset d r.key r) []

/-- The per-batch fallback loop run when the AI call raises
(lines 177–180 of `paper_summarizer.py`). -/
def fbFold (breqs : List (Key × PaperSummaryRequest)) (bk : List Key) (out : SDict) : SDict :=
  bk.foldl (fun o k =>
    match dget breqs k with
    | some r => dset o k (fallback_summary r)
    | none => o) out

/-- One iteration of the per-item loop over a successfully parsed batch
(lines 184–194 of `paper_summarizer.py`); the Bool is `_last_is_fallback`. -/
def aiStep (breqs : List (Key × PaperSummaryRequest)) (ai : SDict) (mc : Int)
    (p : SDict × Bool) (k : Key) : SDict × Bool :=
  let v := aiVal ai k
  if v = [] then
    match dget breqs k with
    | some r => (dset p.1 k (fallback_summary r), true)
    | none => p
  else (dset p.1 k (truncate_chars v mc), p.2)

/-- The per-item loop over a successfully parsed batch. -/
def aiFold (breqs : List (Key × PaperSummaryRequest)) (ai : SDict) (mc : Int)
    (bk : List Key) (st : SDict × Bool) : SDict × Bool :=
  bk.foldl (aiStep breqs ai mc) st

/-- Partition into chunks of `n`, with explicit fuel for termination. -/
def chunksFuel {α : Type} (n : Nat) : Nat → List α → List (List α)
  | 0, _ => []
  | _, [] => []
  | fuel + 1, l => l.take n :: chunksFuel n fuel (l.drop n)

/-- `keys[i : i + BATCH_SIZE]` for `i = 0, n, 2n, ...`: the batches of the
main loop (line 168 of `paper_summarizer.py`), in order. -/
def chunksOf {α : Type} (n : Nat) (l : List α) : List (List α) := chunksFuel n l.length l

/-- The batch loop of `summarize_batch` (lines 168–194).  `n` is the batch
ordinal (`i // BATCH_SIZE`), used to index the oracle. -/
def processBatches (callAI : Nat → Except Unit SDict) (mc : Int)
    (reqs : List PaperSummaryRequest) :
    Nat → List (List Key) → SDict × Bool → SDict × Bool
  | _, [], st => st
  | n, bk :: rest, st =>
    let breqs := batchReqs reqs bk
    match callAI n with
    | .error _ => processBatches callAI mc reqs (n + 1) rest (fbFold breqs bk st.1, true)
    | .ok ai => processBatches callAI mc reqs (n + 1) rest (aiFold breqs ai mc bk st)

/-- `PaperSummarizer.summarize_batch`.  `aiOk` is the result of
`validate_config`; `callAI` abstracts one `_call_ai_batch` invocation per
batch ordinal (`.error` = the call or the JSON parse raised; `.ok d` = the
parsed reply mapping, which is `{}` when the parsed value was not a dict).
The second component models `_last_is_fallback` (`none` = left untouched,
as on the empty-input fast path). -/
def summarize_batch (aiOk : Bool) (callAI : Nat → Except Unit SDict) (mc : Int)
    (reqs : List PaperSummaryRequest) : SDict × Option Bool :=
  if reqs = [] then ([], none)
  else if aiOk = false then
    (reqs.foldl (fun o r =>
      let fb := fallback_summary r
      if fb = [] then o else dset o r.key fb) [], some true)
  else
    let ks := prepKeys reqs
    let st := processBatches callAI mc reqs 0 (chunksOf BATCH_SIZE ks) ([], false)
    (st.1, some st.2)

/-- The last request in the input list carrying a given identifier: the one
whose payload the `prep` and `batch_reqs` dicts retain. -/
def lastReq (reqs : List PaperSummaryRequest) (k : Key) : Option PaperSummaryRequest :=
  (reqs.filter (fun r => decide (r.key = k))).getLast?

/-- JSON values as produced by `json.loads`: the data model walked by
`_walk_json` in `huggingface_papers.py`. -/
inductive JValue where
  | str : List Char → JValue
  | num : Int → JValue
  | jbool : Bool → JValue
  | null : JValue
  | arr : List JValue → JValue
  | obj : List (Key × JValue) → JValue

mutual

/-- `_walk_json` from `huggingface_papers.py`: depth-first sequence of every
mapping node — a mapping yields itself first, then walks its values in
order; a sequence walks its elements in order; scalars yield nothing. -/
def walk_json : JValue → List JValue
  | .obj m => JValue.obj m :: walkFields m
  | .arr l => walkList l
  | _ => []

/-- Walk of a sequence's elements, in order. -/
def walkList : List JValue → List JValue
  | [] => []
  | v :: rest => walk_json v ++ walkList rest

/-- Walk of a mapping's values, in order. -/
def walkFields : List (Key × JValue) → List JValue
  | [] => []
  | (_, v) :: rest => walk_json v ++ walkFields rest

end

/-- `d.get(k)` returning the value only when it is a JSON string
(the `isinstance(v, str)` guards in the source). -/
def jgetStr (o : List (Key × JValue)) (k : Key) : Option (List Char) :=
  match dget o k with
  | some (.str s) => some s
  | _ => none

/-- A word character for Python's `\b` boundary on the ASCII range. -/
def wordChar (c : Char) : Bool := c.isAlphanum || c = '_'

/-- Does the list start with `\d{4}\.\d{5}` exactly (10 characters)? -/
def arxivShape (l : List Char) : Bool :=
  match l with
  | [a, b, c, d, e, f, g, h, i, j] =>
    a.isDigit && b.isDigit && c.isDigit && d.isDigit && e = '.' &&
    f.isDigit && g.isDigit && h.isDigit && i.isDigit && j.isDigit
  | _ => false

/-- Try to match `(\d{4}\.\d{5})\b` at the head of the list. -/
def arxivHere (l : List Char) : Option (List Char) :=
  let cand := l.take 10
  if arxivShape cand then
    match (l.drop 10).head? with
    | none => some cand
    | some c => if wordChar c then none else some cand
  else none

/-- Left-to-right scan for `_ARXIV_ID_RE = r"\b(\d{4}\.\d{5})\b"`; `prev`
is the character before the current position, for the leading boundary. -/
def findArxivAux : Option Char → List Char → Option (List Char)
  | _, [] => none
  | prev, c :: rest =>
    let ok := match prev with
      | none => true
      | some p => !(wordChar p)
    match (if ok then arxivHere (c :: rest) else none) with
    | some id => some id
    | none => findArxivAux (some c) rest

/-- `_ARXIV_ID_RE.search(s)`, returning group 1 of the leftmost match. -/
def findArxiv (s : List Char) : Option (List Char) := findArxivAux none s

/-- The id-field probe list of `_extract_candidates_from_next_data`
(line 80), in source order, including the duplicated `paper_id`. -/
def ID_FIELDS : List Key :=
  ["arxivId".toList, "arxiv_id".toList, "paperId".toList, "paper_id".toList,
   "id".toList, "paper_id".toList]

/-- The id-scanning loop over the field list (lines 80–86): a string field
without the pattern falls through to the next field. -/
def idFromFields (o : List (Key × JValue)) : List Key → Option (List Char)
  | [] => none
  | k :: rest =>
    match jgetStr o k with
    | some v =>
      match findArxiv v with
      | some id => some id
      | none => idFromFields o rest
    | none => idFromFields o rest

/-- Full id extraction (lines 78–94): the field list first, then the `url`
field when it is a non-empty string. -/
def idScan (o : List (Key × JValue)) : Option (List Char) :=
  match idFromFields o ID_FIELDS with
  | some id => some id
  | none =>
    match jgetStr o "url".toList with
    | some u => if u = [] then none else findArxiv u
    | none => none

/-- The author-field probe list (line 101), in source order. -/
def AUTHOR_FIELDS : List Key :=
  ["authors".toList, "author".toList, "authorText".toList, "author_text".toList]

/-- The author-scanning loop (lines 100–104). -/
def authorScan (o : List (Key × JValue)) : List Key → Option (List Char)
  | [] => none
  | k :: rest =>
    match jgetStr o k with
    | some v => if pystrip v = [] then authorScan o rest else some (pystrip v)
    | none => authorScan o rest

/-- A candidate `(arxiv_id, title, author)` tuple. -/
abbrev Cand := Key × List Char × Option (List Char)

/-- The body of the `for d in _walk_json(...)` loop (lines 73–107): a node
contributes a candidate iff it is a mapping with a title-like string field
of stripped length ≥ 6 and an extractable arXiv id. -/
def candOfNode : JValue → Option Cand
  | .obj o =>
    match jgetStr o "title".toList with
    | none => none
    | some t =>
      if t = [] then none
      else if (pystrip t).length < 6 then none
      else
        match idScan o with
        | none => none
        | some id => some (id, pystrip t, authorScan o AUTHOR_FIELDS)
  | _ => none

/-- One iteration of the shared deduplication loop: insert when the
identifier is new, overwrite only when the new title is strictly longer. -/
def dedupStep {V : Type} (tlen : V → Nat) (d : List (Key × V)) (p : Key × V) :
    List (Key × V) :=
  match dget d p.1 with
  | none => dset d p.1 p.2
  | some cur => if tlen cur < tlen p.2 then dset d p.1 p.2 else d

/-- The shared deduplication loop (lines 109–115, 157–163, 190–194):
one dict entry per identifier, replaced only by a strictly longer title,
so the first-seen candidate wins ties. -/
def dedupLongest {V : Type} (tlen : V → Nat) (l : List (Key × V)) : List (Key × V) :=
  l.foldl (dedupStep tlen) []

/-- Title length of a candidate's value part. -/
def candTitleLen (v : List Char × Option (List Char)) : Nat := v.1.length

/-- `_extract_candidates_from_next_data` from `huggingface_papers.py`. -/
def extract_candidates_from_next_data (nd : JValue) : List Cand :=
  dedupLongest candTitleLen ((walk_json nd).filterMap candOfNode)

/-- The post-parse stage of `_try_parse_next_data` (lines 118–135).  The
script-block regex and `json.loads` are abstracted as `parsed : Option
JValue` (`none` = block missing, empty, or unparsable).  Line 135 replaces
a non-dict top-level value with `{}` before extraction. -/
def next_data_stage (parsed : Option JValue) : List Cand :=
  match parsed with
  | none => []
  | some data =>
    extract_candidates_from_next_data
      (match data with
       | JValue.obj o => JValue.obj o
       | _ => JValue.obj [])

/-- The literal path fragment of `_HF_DATE_RE`. -/
def DATE_PAT : List Char := "/papers/date/".toList

/-- Does the list start with `\d{4}-\d{2}-\d{2}` exactly (10 characters)? -/
def dateShape (l : List Char) : Bool :=
  match l with
  | [a, b, c, d, e, f, g, h, i, j] =>
    a.isDigit && b.isDigit && c.isDigit && d.isDigit && e = '-' &&
    f.isDigit && g.isDigit && h = '-' && i.isDigit && j.isDigit
  | _ => false

/-- Try to match `_HF_DATE_RE = r"/papers/date/(\d{4}-\d{2}-\d{2})\b"` at
the head of the list, returning group 1. -/
def dateHere (l : List Char) : Option (List Char) :=
  if leadsWith DATE_PAT l then
    let rest := l.drop DATE_PAT.length
    let d := rest.take 10
    if dateShape d then
      match (rest.drop 10).head? with
      | none => some d
      | some c => if wordChar c then none else some d
    else none
  else none

/-- Left-to-right scan for `_HF_DATE_RE.search`. -/
def hfDateSearchAux : List Char → Option (List Char)
  | [] => none
  | c :: rest =>
    match dateHere (c :: rest) with
    | some d => some d
    | none => hfDateSearchAux rest

/-- `_HF_DATE_RE.search(feed_url)`, returning group 1 of the leftmost match. -/
def hfDateSearch (s : List Char) : Option (List Char) := hfDateSearchAux s

/-- `_published_at_for_feed` from `huggingface_papers.py`.  `now` models the
value `_now_iso_utc()` would return at the moment of the call. -/
def published_at_for_feed (now : List Char) (feed_url : List Char) : List Char :=
  match hfDateSearch feed_url with
  | none => now
  | some d => d ++ "T12:00:00Z".toList

/-- Running argmax: the first element (starting from `cur`) whose `tlen` is
strictly greater than everything before it. -/
def firstLongestFrom {V : Type} (tlen : V → Nat) (cur : V) (l : List V) : V :=
  l.foldl (fun c w => if tlen c < tlen w then w else c) cur

/-- The first element of maximal `tlen` in a list (ties: earliest wins). -/
def firstLongest {V : Type} (tlen : V → Nat) : List V → Option V
  | [] => none
  | v :: rest => some (firstLongestFrom tlen v rest)

/-- All whitespace characters in the list are plain spaces. -/
def wsOnlySpace (l : List Char) : Prop := ∀ c ∈ l, pws c = true → c = ' '

/-- No two adjacent characters are both spaces. -/
def noDbl : List Char → Prop
  | [] => True
  | [_] => True
  | a :: b :: rest => ¬(a = ' ' ∧ b = ' ') ∧ noDbl (b :: rest)

/-- The head, when present, is not whitespace. -/
def headNoWs (l : List Char) : Prop := ∀ c, l.head? = some c → pws c = false

/-- The last element, when present, is not whitespace. -/
def lastNoWs (l : List Char) : Prop := ∀ c, l.getLast? = some c → pws c = false

/-- Fully normalized text: what `_strip_ws` produces. -/
def NormWS (l : List Char) : Prop := wsOnlySpace l ∧ noDbl l ∧ headNoWs l ∧ lastNoWs l

/-- No embedded line breaks. -/
def noLB (l : List Char) : Prop := '\n' ∉ l ∧ '\r' ∉ l

/-- Example fixture: eleven requests, hence two batches of sizes 10 and 1. -/
def exampleReqs : List PaperSummaryRequest :=
  [⟨"a0".toList, "t0".toList, "abs0".toList⟩,
   ⟨"a1".toList, "t1".toList, "abs1".toList⟩,
   ⟨"a2".toList, "t2".toList, "abs2".toList⟩,
   ⟨"a3".toList, "t3".toList, "abs3".toList⟩,
   ⟨"a4".toList, "t4".toList, "abs4".toList⟩,
   ⟨"a5".toList, "t5".toList, "abs5".toList⟩,
   ⟨"a6".toList, "t6".toList, "abs6".toList⟩,
   ⟨"a7".toList, "t7".toList, "abs7".toList⟩,
   ⟨"a8".toList, "t8".toList, "abs8".toList⟩,
   ⟨"a9".toList, "t9".toList, "abs9".toList⟩,
   ⟨"b10".toList, "t10".toList, "abs10".toList⟩]

/-- Example fixture: an oracle that raises on the first batch and answers
the singleton second batch. -/
def exampleOracle : Nat → Except Unit SDict :=
  fun n => if n = 0 then Except.error ()
    else Except.ok [("b10".toList, "hello".toList)]

/-! ### Association-list dictionary lemmas -/

@[simp]
theorem dget_nil {α : Type} (k : Key) : dget ([] : List (Key × α)) k = none := rfl

theorem dget_cons {α : Type} (k₀ : Key) (v₀ : α) (rest : List (Key × α)) (k : Key) :
    dget ((k₀, v₀) :: rest) k = if k₀ = k then some v₀ else dget rest k := rfl

@[simp]
theorem dset_nil {α : Type} (k : Key) (v : α) : dset ([] : List (Key × α)) k v = [(k, v)] := rfl

theorem dset_cons {α : Type} (k₀ : Key) (v₀ : α) (rest : List (Key × α)) (k : Key) (v : α) :
    dset ((k₀, v₀) :: rest) k v =
      if k₀ = k then (k₀, v) :: rest else (k₀, v₀) :: dset rest k v := rfl

theorem dget_dset_self {α : Type} (d : List (Key × α)) (k : Key) (v : α) :
    dget (dset d k v) k = some v := by
  induction d with
  | nil => simp [dget_cons]
  | cons p rest ih =>
    obtain ⟨k₀, v₀⟩ := p
    rw [dset_cons]
    by_cases h : k₀ = k
    · rw [if_pos h, dget_cons, if_pos h]
    · rw [if_neg h, dget_cons, if_neg h, ih]

theorem dget_dset_ne {α : Type} (d : List (Key × α)) (k k' : Key) (v : α) (h : k' ≠ k) :
    dget (dset d k' v) k = dget d k := by
  induction d with
  | nil => simp [dget_cons, if_neg h]
  | cons p rest ih =>
    obtain ⟨k₀, v₀⟩ := p
    rw [dset_cons]
    by_cases h₀ : k₀ = k'
    · rw [if_pos h₀, dget_cons, dget_cons]
      subst h₀
      rw [if_neg h, if_neg h]
    · rw [if_neg h₀, dget_cons, dget_cons, ih]

theorem dset_keys {α : Type} (d : List (Key × α)) (k : Key) (v : α) :
    (dset d k v).map Prod.fst =
      if k ∈ d.map Prod.fst then d.map Prod.fst else d.map Prod.fst ++ [k] := by
  induction d with
  | nil => simp
  | cons p rest ih =>
    obtain ⟨k₀, v₀⟩ := p
    rw [dset_cons]
    by_cases h : k₀ = k
    · subst h
      rw [if_pos rfl, List.map_cons, List.map_cons,
        if_pos (List.mem_cons_self _ _)]
    · rw [if_neg h, List.map_cons, List.map_cons, ih]
      by_cases hm : k ∈ rest.map Prod.fst
      · rw [if_pos hm, if_pos (List.mem_cons_of_mem _ hm)]
      · rw [if_neg hm,
          if_neg (by
            intro hc
            rcases List.mem_cons.mp hc with hc | hc
            · exact h hc.symm
            · exact hm hc),
          List.cons_append]

theorem mem_dset_keys {α : Type} (d : List (Key × α)) (k k' : Key) (v : α) :
    k ∈ (dset d k' v).map Prod.fst ↔ k = k' ∨ k ∈ d.map Prod.fst := by
  rw [dset_keys]
  by_cases hm : k' ∈ d.map Prod.fst
  · rw [if_pos hm]
    constructor
    · exact fun h => Or.inr h
    · rintro (rfl | h)
      · exact hm
      · exact h
  · rw [if_neg hm, List.mem_append, List.mem_singleton]
    tauto

theorem nodup_dset_keys {α : Type} (d : List (Key × α)) (k : Key) (v : α)
    (h : (d.map Prod.fst).Nodup) : ((dset d k v).map Prod.fst).Nodup := by
  rw [dset_keys]
  by_cases hm : k ∈ d.map Prod.fst
  · rw [if_pos hm]; exact h
  · rw [if_neg hm]
    rw [List.nodup_append_comm, List.singleton_append, List.nodup_cons]
    exact ⟨hm, h⟩

theorem dget_isSome_iff_mem {α : Type} (d : List (Key × α)) (k : Key) :
    (dget d k).isSome ↔ k ∈ d.map Prod.fst := by
  induction d with
  | nil => simp
  | cons p rest ih =>
    obtain ⟨k₀, v₀⟩ := p
    rw [dget_cons]
    by_cases h : k₀ = k
    · subst h
      rw [if_pos rfl, List.map_cons]
      simp only [Option.isSome_some, true_iff, List.mem_cons]
      exact Or.inl trivial
    · have hne : ¬ k = k₀ := fun hh => h hh.symm
      rw [if_neg h, List.map_cons, List.mem_cons]
      simp only [ih]
      tauto

theorem dget_eq_none_of_not_mem {α : Type} (d : List (Key × α)) (k : Key)
    (h : k ∉ d.map Prod.fst) : dget d k = none := by
  cases hd : dget d k with
  | none => rfl
  | some v =>
    exact absurd ((dget_isSome_iff_mem d k).mp (by simp [hd])) h

theorem dset_values {α : Type} (P : α → Prop) (d : List (Key × α)) (k : Key) (v : α)
    (hd : ∀ p ∈ d, P p.2) (hv : P v) : ∀ p ∈ dset d k v, P p.2 := by
  induction d with
  | nil =>
    intro p hp
    rw [dset_nil, List.mem_singleton] at hp
    subst hp
    exact hv
  | cons q rest ih =>
    obtain ⟨k₀, v₀⟩ := q
    intro p hp
    rw [dset_cons] at hp
    by_cases h : k₀ = k
    · rw [if_pos h, List.mem_cons] at hp
      rcases hp with hp | hp
      · subst hp; exact hv
      · exact hd _ (List.mem_cons_of_mem _ hp)
    · rw [if_neg h, List.mem_cons] at hp
      rcases hp with hp | hp
      · subst hp; exact hd _ (List.mem_cons_self _ _)
      · exact ih (fun q hq => hd q (List.mem_cons_of_mem _ hq)) p hp

theorem dget_mem_values {α : Type} (d : List (Key × α)) (k : Key) (v : α)
    (h : dget d k = some v) : ∃ p ∈ d, p.2 = v := by
  induction d with
  | nil => simp at h
  | cons q rest ih =>
    obtain ⟨k₀, v₀⟩ := q
    rw [dget_cons] at h
    by_cases hk : k₀ = k
    · rw [if_pos hk, Option.some.injEq] at h
      exact ⟨(k₀, v₀), List.mem_cons_self _ _, h⟩
    · rw [if_neg hk] at h
      obtain ⟨p, hp, hpv⟩ := ih h
      exact ⟨p, List.mem_cons_of_mem _ hp, hpv⟩

/-! ### Whitespace normalization lemmas -/

theorem noDbl_nil : noDbl [] := trivial

theorem noDbl_cons (a : Char) (l : List Char) :
    noDbl (a :: l) ↔ (∀ x, l.head? = some x → ¬(a = ' ' ∧ x = ' ')) ∧ noDbl l := by
  cases l with
  | nil => simp [noDbl]
  | cons b r => simp [noDbl]

theorem noDbl_tail (a : Char) (l : List Char) (h : noDbl (a :: l)) : noDbl l :=
  ((noDbl_cons a l).mp h).2

theorem collapse_wsOnly (l : List Char) : ∀ b, wsOnlySpace (collapseAux b l) := by
  induction l with
  | nil => intro b c hc; simp [collapseAux] at hc
  | cons c rest ih =>
    intro b x hx hpx
    by_cases hc : pws c
    · rw [collapseAux, if_pos hc] at hx
      cases b with
      | true => exact ih true x hx hpx
      | false =>
        rw [if_neg (by simp)] at hx
        rcases List.mem_cons.mp hx with h | h
        · exact h
        · exact ih true x h hpx
    · rw [collapseAux, if_neg hc] at hx
      rcases List.mem_cons.mp hx with h | h
      · subst h; exact absurd hpx (by simp [hc])
      · exact ih false x h hpx

theorem collapse_noDbl_head (l : List Char) :
    (∀ b, noDbl (collapseAux b l)) ∧
      (∀ c, (collapseAux true l).head? = some c → pws c = false) := by
  induction l with
  | nil => exact ⟨fun _ => trivial, fun c hc => by simp [collapseAux] at hc⟩
  | cons c rest ih =>
    constructor
    · intro b
      by_cases hc : pws c
      · rw [collapseAux, if_pos hc]
        cases b with
        | true => exact ih.1 true
        | false =>
          rw [if_neg (by simp)]
          rw [noDbl_cons]
          refine ⟨fun x hx hand => ?_, ih.1 true⟩
          have := ih.2 x hx
          rw [hand.2] at this
          simp [pws] at this
      · rw [collapseAux, if_neg hc]
        rw [noDbl_cons]
        refine ⟨fun x hx hand => ?_, ih.1 false⟩
        rw [hand.1] at hc
        simp [pws] at hc
    · intro x hx
      by_cases hc : pws c
      · rw [collapseAux, if_pos hc, if_pos rfl] at hx
        exact ih.2 x hx
      · rw [collapseAux, if_neg hc] at hx
        simp only [List.head?_cons, Option.some.injEq] at hx
        subst hx
        simpa using hc

theorem lstrip_nil : lstrip [] = [] := rfl

theorem lstrip_cons (c : Char) (rest : List Char) :
    lstrip (c :: rest) = if pws c then lstrip rest else c :: rest := by
  simp [lstrip, List.dropWhile_cons]

theorem lstrip_headNoWs (l : List Char) : headNoWs (lstrip l) := by
  induction l with
  | nil => intro c hc; simp [lstrip_nil] at hc
  | cons c rest ih =>
    intro x hx
    rw [lstrip_cons] at hx
    by_cases hc : pws c
    · rw [if_pos hc] at hx; exact ih x hx
    · rw [if_neg hc] at hx
      simp only [List.head?_cons, Option.some.injEq] at hx
      subst hx
      simpa using hc

theorem lstrip_subset (l : List Char) : ∀ a ∈ lstrip l, a ∈ l := by
  induction l with
  | nil => intro a ha; simp [lstrip_nil] at ha
  | cons c rest ih =>
    intro a ha
    rw [lstrip_cons] at ha
    by_cases hc : pws c
    · rw [if_pos hc] at ha; exact List.mem_cons_of_mem _ (ih a ha)
    · rw [if_neg hc] at ha; exact ha

theorem lstrip_wsOnly (l : List Char) (h : wsOnlySpace l) : wsOnlySpace (lstrip l) :=
  fun c hc => h c (lstrip_subset l c hc)

theorem lstrip_noDbl (l : List Char) (h : noDbl l) : noDbl (lstrip l) := by
  induction l with
  | nil => exact h
  | cons c rest ih =>
    rw [lstrip_cons]
    by_cases hc : pws c
    · rw [if_pos hc]; exact ih (noDbl_tail _ _ h)
    · rw [if_neg hc]; exact h

theorem lstrip_eq_self (l : List Char) (h : headNoWs l) : lstrip l = l := by
  cases l with
  | nil => rfl
  | cons c rest =>
    rw [lstrip_cons, if_neg (by simpa using h c rfl)]

theorem rstrip_nil : rstrip [] = [] := rfl

theorem rstrip_cons (c : Char) (rest : List Char) :
    rstrip (c :: rest) =
      if (rstrip rest).isEmpty && pws c then [] else c :: rstrip rest := rfl

theorem rstrip_subset (l : List Char) : ∀ a ∈ rstrip l, a ∈ l := by
  induction l with
  | nil => intro a ha; simp [rstrip] at ha
  | cons c rest ih =>
    intro a ha
    rw [rstrip_cons] at ha
    by_cases hb : (rstrip rest).isEmpty && pws c
    · rw [if_pos hb] at ha; simp at ha
    · rw [if_neg hb] at ha
      rcases List.mem_cons.mp ha with h | h
      · subst h; exact List.mem_cons_self _ _
      · exact List.mem_cons_of_mem _ (ih a h)

theorem rstrip_length_le (l : List Char) : (rstrip l).length ≤ l.length := by
  induction l with
  | nil => simp [rstrip]
  | cons c rest ih =>
    rw [rstrip_cons]
    by_cases hb : (rstrip rest).isEmpty && pws c
    · rw [if_pos hb]; simp
    · rw [if_neg hb]
      simpa using ih

theorem rstrip_head? (l : List Char) (h : rstrip l ≠ []) : (rstrip l).head? = l.head? := by
  cases l with
  | nil => rfl
  | cons c rest =>
    rw [rstrip_cons] at h ⊢
    by_cases hb : (rstrip rest).isEmpty && pws c
    · exact absurd (if_pos hb) h
    · rw [if_neg hb]; rfl

theorem rstrip_wsOnly (l : List Char) (h : wsOnlySpace l) : wsOnlySpace (rstrip l) :=
  fun c hc => h c (rstrip_subset l c hc)

theorem rstrip_noDbl (l : List Char) (h : noDbl l) : noDbl (rstrip l) := by
  induction l with
  | nil => exact h
  | cons c rest ih =>
    rw [rstrip_cons]
    by_cases hb : (rstrip rest).isEmpty && pws c
    · rw [if_pos hb]; exact noDbl_nil
    · rw [if_neg hb, noDbl_cons]
      refine ⟨fun x hx hand => ?_, ih (noDbl_tail _ _ h)⟩
      have hne : rstrip rest ≠ [] := by
        intro hnil
        rw [hnil] at hx
        simp at hx
      rw [rstrip_head? rest hne] at hx
      exact ((noDbl_cons c rest).mp h).1 x hx hand

theorem rstrip_headNoWs (l : List Char) (h : headNoWs l) : headNoWs (rstrip l) := by
  intro c hc
  by_cases hne : rstrip l = []
  · rw [hne] at hc; simp at hc
  · rw [rstrip_head? l hne] at hc
    exact h c hc

theorem rstrip_lastNoWs (l : List Char) : lastNoWs (rstrip l) := by
  induction l with
  | nil => intro c hc; simp [rstrip] at hc
  | cons c rest ih =>
    intro x hx
    rw [rstrip_cons] at hx
    by_cases hb : (rstrip rest).isEmpty && pws c
    · rw [if_pos hb] at hx; simp at hx
    · rw [if_neg hb] at hx
      cases hr : rstrip rest with
      | nil =>
        rw [hr] at hx hb
        simp only [List.getLast?_singleton, Option.some.injEq] at hx
        subst hx
        simpa using hb
      | cons y ys =>
        rw [hr] at hx
        rw [List.getLast?_cons_cons] at hx
        rw [← hr] at hx
        exact ih x hx

theorem rstrip_eq_self (l : List Char) (h : lastNoWs l) : rstrip l = l := by
  induction l with
  | nil => rfl
  | cons c rest ih =>
    rw [rstrip_cons]
    cases hr : rest with
    | nil =>
      have hpc : pws c = false := h c (by rw [hr]; simp)
      rw [rstrip_nil, hpc]
      simp
    | cons y ys =>
      have htail : lastNoWs rest := by
        intro x hx
        apply h
        rw [hr] at hx ⊢
        rw [List.getLast?_cons_cons]
        exact hx
      rw [← hr, ih htail]
      rw [if_neg (by simp [hr])]

theorem rstrip_ne_nil_head (c : Char) (rest : List Char) (h : pws c = false) :
    rstrip (c :: rest) ≠ [] := by
  rw [rstrip_cons, if_neg (by simp [h])]
  simp

theorem NormWS_nil : NormWS [] :=
  ⟨fun c hc => absurd hc (List.not_mem_nil c),
   trivial,
   fun c hc => by simp at hc,
   fun c hc => by simp at hc⟩

theorem strip_ws_norm (l : List Char) : NormWS (strip_ws l) := by
  rw [strip_ws]
  by_cases h : l = []
  · rw [if_pos h]; exact NormWS_nil
  · rw [if_neg h]
    have h1 := collapse_wsOnly l false
    have h2 := (collapse_noDbl_head l).1 false
    refine ⟨rstrip_wsOnly _ (lstrip_wsOnly _ h1),
      rstrip_noDbl _ (lstrip_noDbl _ h2),
      rstrip_headNoWs _ (lstrip_headNoWs _),
      rstrip_lastNoWs _⟩

theorem collapse_eq_self (l : List Char) :
    ∀ b, wsOnlySpace l → noDbl l → (b = true → headNoWs l) → collapseAux b l = l := by
  induction l with
  | nil => intro b _ _ _; rfl
  | cons c rest ih =>
    intro b hws hdbl hhd
    by_cases hc : pws c
    · have hcsp : c = ' ' := hws c (List.mem_cons_self _ _) hc
      cases b with
      | true =>
        exact absurd (hhd rfl c rfl) (by simp [hc])
      | false =>
        rw [collapseAux, if_pos hc, if_neg (by simp)]
        rw [hcsp]
        congr 1
        refine ih true (fun x hx hpx => hws x (List.mem_cons_of_mem _ hx) hpx)
          (noDbl_tail _ _ hdbl) (fun _ => ?_)
        intro x hx
        have hnx : ¬(c = ' ' ∧ x = ' ') := ((noDbl_cons c rest).mp hdbl).1 x hx
        by_cases hpx : pws x
        · have hxsp : x = ' ' :=
            hws x (List.mem_cons_of_mem _ (List.mem_of_mem_head? hx)) hpx
          exact absurd ⟨hcsp, hxsp⟩ hnx
        · simpa using hpx
    · rw [collapseAux, if_neg hc]
      congr 1
      exact ih false (fun x hx hpx => hws x (List.mem_cons_of_mem _ hx) hpx)
        (noDbl_tail _ _ hdbl) (by simp)

theorem strip_ws_eq_self (l : List Char) (h : NormWS l) : strip_ws l = l := by
  rw [strip_ws]
  by_cases hn : l = []
  · rw [if_pos hn, hn]
  · rw [if_neg hn, collapse_eq_self l false h.1 h.2.1 (by simp),
      lstrip_eq_self l h.2.2.1, rstrip_eq_self l h.2.2.2]

theorem head?_take (l : List Char) (n : Nat) (c : Char)
    (h : (l.take n).head? = some c) : l.head? = some c := by
  cases l with
  | nil => simp at h
  | cons a rest =>
    cases n with
    | zero => simp at h
    | succ m => simpa using h

theorem noDbl_take (l : List Char) (h : noDbl l) : ∀ n, noDbl (l.take n) := by
  induction l with
  | nil => intro n; simpa using noDbl_nil
  | cons c rest ih =>
    intro n
    cases n with
    | zero => exact noDbl_nil
    | succ m =>
      rw [List.take_succ_cons, noDbl_cons]
      refine ⟨fun x hx hand => ?_, ih (noDbl_tail _ _ h) m⟩
      exact ((noDbl_cons c rest).mp h).1 x (head?_take rest m x hx) hand

theorem wsOnly_take (l : List Char) (h : wsOnlySpace l) (n : Nat) :
    wsOnlySpace (l.take n) :=
  fun c hc => h c (List.take_subset n l hc)

theorem headNoWs_take (l : List Char) (h : headNoWs l) (n : Nat) :
    headNoWs (l.take n) :=
  fun c hc => h c (head?_take l n c hc)

theorem NormWS_rstrip_take (l : List Char) (h : NormWS l) (n : Nat) :
    NormWS (rstrip (l.take n)) :=
  ⟨rstrip_wsOnly _ (wsOnly_take l h.1 n),
   rstrip_noDbl _ (noDbl_take l h.2.1 n),
   rstrip_headNoWs _ (headNoWs_take l h.2.2.1 n),
   rstrip_lastNoWs _⟩

/-! ### Truncation lemmas -/

theorem truncate_chars_norm (text : List Char) (m : Int) : NormWS (truncate_chars text m) := by
  simp only [truncate_chars]
  by_cases h1 : strip_ws text = []
  · rw [if_pos h1]; exact NormWS_nil
  · rw [if_neg h1]
    by_cases h2 : ((strip_ws text).length : Int) ≤ m
    · rw [if_pos h2]; exact strip_ws_norm text
    · rw [if_neg h2]
      exact NormWS_rstrip_take _ (strip_ws_norm text) _

theorem truncate_chars_length (text : List Char) (m : Int) (h : 0 ≤ m) :
    (truncate_chars text m).length ≤ m.toNat := by
  simp only [truncate_chars]
  by_cases h1 : strip_ws text = []
  · rw [if_pos h1]; simp
  · rw [if_neg h1]
    by_cases h2 : ((strip_ws text).length : Int) ≤ m
    · rw [if_pos h2]; omega
    · rw [if_neg h2]
      calc (rstrip (pySlice (strip_ws text) m)).length
          ≤ (pySlice (strip_ws text) m).length := rstrip_length_le _
        _ ≤ m.toNat := by
            rw [pySlice, pySliceLen, if_pos h, List.length_take]
            omega

theorem truncate_chars_idem (text : List Char) (m : Int) (h : 0 ≤ m) :
    truncate_chars (truncate_chars text m) m = truncate_chars text m := by
  have hn : NormWS (truncate_chars text m) := truncate_chars_norm text m
  have hlen : (truncate_chars text m).length ≤ m.toNat := truncate_chars_length text m h
  set r := truncate_chars text m with hr
  simp only [truncate_chars]
  rw [strip_ws_eq_self r hn]
  by_cases h1 : r = []
  · rw [if_pos h1, h1]
  · rw [if_neg h1, if_pos (by omega)]

theorem noLB_nil : noLB [] := ⟨List.not_mem_nil _, List.not_mem_nil _⟩

theorem noLB_of_wsOnly (l : List Char) (h : wsOnlySpace l) : noLB l := by
  constructor
  · intro hm; exact absurd (h _ hm (by decide)) (by decide)
  · intro hm; exact absurd (h _ hm (by decide)) (by decide)

theorem noLB_subset (l l' : List Char) (h : noLB l) (hsub : ∀ a ∈ l', a ∈ l) : noLB l' :=
  ⟨fun hm => h.1 (hsub _ hm), fun hm => h.2 (hsub _ hm)⟩

theorem noLB_append (a b : List Char) (ha : noLB a) (hb : noLB b) : noLB (a ++ b) := by
  constructor
  · rw [List.mem_append]; rintro (h | h); exacts [ha.1 h, hb.1 h]
  · rw [List.mem_append]; rintro (h | h); exacts [ha.2 h, hb.2 h]

theorem noLB_dots : noLB "...".toList := by
  constructor <;> decide

theorem truncate_chars_noLB (text : List Char) (m : Int) : noLB (truncate_chars text m) := by
  have hws : noLB (strip_ws text) := noLB_of_wsOnly _ (strip_ws_norm text).1
  simp only [truncate_chars]
  by_cases h1 : strip_ws text = []
  · rw [if_pos h1]; exact noLB_nil
  · rw [if_neg h1]
    by_cases h2 : ((strip_ws text).length : Int) ≤ m
    · rw [if_pos h2]; exact hws
    · rw [if_neg h2]
      exact noLB_subset _ _ hws
        (fun a ha => List.take_subset _ _ (rstrip_subset _ a ha))

theorem pyRfind_cases (l sub : List Char) :
    pyRfind l sub = -1 ∨
      ∃ i : Nat, pyRfind l sub = (i : Int) ∧ i ≤ l.length ∧
        leadsWith sub (l.drop i) = true := by
  rw [pyRfind]
  cases hf : (List.range (l.length + 1)).reverse.find? (fun i => leadsWith sub (l.drop i)) with
  | none => left; rfl
  | some i =>
    right
    refine ⟨i, rfl, ?_, by simpa using List.find?_some hf⟩
    have hm : i ∈ (List.range (l.length + 1)).reverse := List.mem_of_find?_eq_some hf
    rw [List.mem_reverse, List.mem_range] at hm
    omega

theorem pyRfind_nil (sub : List Char) (h : sub ≠ []) : pyRfind [] sub = -1 := by
  cases sub with
  | nil => exact absurd rfl h
  | cons a as => rfl

theorem sepLoop_some (chunk : List Char) (thr : Int) (ss : List (List Char)) (r : List Char)
    (h : sepLoop chunk thr ss = some r) :
    ∃ sep ∈ ss, thr < pyRfind chunk sep ∧
      r = rstrip (pySlice chunk (pyRfind chunk sep + (sep.length : Int))) := by
  induction ss with
  | nil => simp [sepLoop] at h
  | cons sep rest ih =>
    simp only [sepLoop] at h
    by_cases hp : thr < pyRfind chunk sep
    · rw [if_pos hp, Option.some.injEq] at h
      exact ⟨sep, List.mem_cons_self _ _, hp, h.symm⟩
    · rw [if_neg hp] at h
      obtain ⟨s, hs, h1, h2⟩ := ih h
      exact ⟨s, List.mem_cons_of_mem _ hs, h1, h2⟩

theorem seps_ne_nil : ∀ s ∈ seps, s ≠ [] := by decide

theorem truncate_at_sentence_length (text : List Char) (m : Int) (h : 0 ≤ m) :
    (truncate_at_sentence text m).length ≤ m.toNat + 3 := by
  simp only [truncate_at_sentence]
  by_cases h1 : strip_ws text = []
  · rw [if_pos h1]; simp
  · rw [if_neg h1]
    by_cases h2 : ((strip_ws text).length : Int) ≤ m
    · rw [if_pos h2]; omega
    · rw [if_neg h2]
      have hchunk : (pySlice (strip_ws text) m).length ≤ m.toNat := by
        rw [pySlice, pySliceLen, if_pos h, List.length_take]
        omega
      cases hsl : sepLoop (pySlice (strip_ws text) m) (Int.fdiv m 3) seps with
      | some r =>
        obtain ⟨sep, _, _, hr⟩ := sepLoop_some _ _ _ _ hsl
        rw [hr]
        calc (rstrip (pySlice (pySlice (strip_ws text) m) _)).length
            ≤ (pySlice (pySlice (strip_ws text) m) _).length := rstrip_length_le _
          _ ≤ (pySlice (strip_ws text) m).length := by
              rw [pySlice, List.length_take]; omega
          _ ≤ m.toNat + 3 := by omega
      | none =>
        by_cases hsp : Int.fdiv m 3 < pyRfind (pySlice (strip_ws text) m) [' ']
        · rw [if_pos hsp, List.length_append]
          have : (rstrip (pySlice (pySlice (strip_ws text) m)
              (pyRfind (pySlice (strip_ws text) m) [' ']))).length
              ≤ (pySlice (strip_ws text) m).length := by
            calc (rstrip _).length ≤ _ := rstrip_length_le _
              _ ≤ (pySlice (strip_ws text) m).length := by
                  rw [pySlice, List.length_take]; omega
          have hd : ("...".toList).length = 3 := rfl
          omega
        · rw [if_neg hsp, List.length_append]
          have := rstrip_length_le (pySlice (strip_ws text) m)
          have hd : ("...".toList).length = 3 := rfl
          omega

theorem truncate_at_sentence_noLB (text : List Char) (m : Int) :
    noLB (truncate_at_sentence text m) := by
  have hws : noLB (strip_ws text) := noLB_of_wsOnly _ (strip_ws_norm text).1
  have hchunk : noLB (pySlice (strip_ws text) m) :=
    noLB_subset _ _ hws (fun a ha => List.take_subset _ _ ha)
  simp only [truncate_at_sentence]
  by_cases h1 : strip_ws text = []
  · rw [if_pos h1]; exact noLB_nil
  · rw [if_neg h1]
    by_cases h2 : ((strip_ws text).length : Int) ≤ m
    · rw [if_pos h2]; exact hws
    · rw [if_neg h2]
      cases hsl : sepLoop (pySlice (strip_ws text) m) (Int.fdiv m 3) seps with
      | some r =>
        obtain ⟨sep, _, _, hr⟩ := sepLoop_some _ _ _ _ hsl
        rw [hr]
        exact noLB_subset _ _ hchunk
          (fun a ha => List.take_subset _ _ (rstrip_subset _ a ha))
      | none =>
        by_cases hsp : Int.fdiv m 3 < pyRfind (pySlice (strip_ws text) m) [' ']
        · rw [if_pos hsp]
          exact noLB_append _ _
            (noLB_subset _ _ hchunk
              (fun a ha => List.take_subset _ _ (rstrip_subset _ a ha)))
            noLB_dots
        · rw [if_neg hsp]
          exact noLB_append _ _
            (noLB_subset _ _ hchunk (fun a ha => rstrip_subset _ a ha)) noLB_dots

theorem head?_take_of_ne_zero (l : List Char) (k : Nat) (hk : k ≠ 0) :
    (l.take k).head? = l.head? := by
  cases l with
  | nil => simp
  | cons c t =>
    cases k with
    | zero => exact absurd rfl hk
    | succ k' => rw [List.take_succ_cons]; rfl

theorem rstrip_ne_nil_of_head? (l : List Char) (c : Char)
    (h : l.head? = some c) (hc : pws c = false) : rstrip l ≠ [] := by
  cases l with
  | nil => simp at h
  | cons a t =>
    rw [List.head?_cons, Option.some.injEq] at h
    exact rstrip_ne_nil_head a t (by rw [h]; exact hc)

theorem truncate_at_sentence_ne_nil (text : List Char) (m : Int) (h : 0 ≤ m)
    (hne : strip_ws text ≠ []) : truncate_at_sentence text m ≠ [] := by
  have hnorm := strip_ws_norm text
  have hthr : 0 ≤ Int.fdiv m 3 := Int.fdiv_nonneg h (by omega)
  simp only [truncate_at_sentence]
  rw [if_neg hne]
  by_cases h2 : ((strip_ws text).length : Int) ≤ m
  · rw [if_pos h2]; exact hne
  · rw [if_neg h2]
    cases hsl : sepLoop (pySlice (strip_ws text) m) (Int.fdiv m 3) seps with
    | some r =>
      show r ≠ []
      obtain ⟨sep, hsep, hpos, hr⟩ := sepLoop_some _ _ _ _ hsl
      rcases pyRfind_cases (pySlice (strip_ws text) m) sep with hc | ⟨i, hi, _, _⟩
      · rw [hc] at hpos; omega
      · rw [hi] at hpos hr
        obtain ⟨c, hhd⟩ : ∃ c, (strip_ws text).head? = some c := by
          cases hst : strip_ws text with
          | nil => exact absurd hst hne
          | cons c t' => exact ⟨c, rfl⟩
        have hpc : pws c = false := hnorm.2.2.1 c hhd
        -- the chunk is nonempty: an empty chunk has rfind = -1
        have hk : pySliceLen (strip_ws text).length m ≠ 0 := by
          intro hk0
          have hcn : pySlice (strip_ws text) m = [] := by
            rw [pySlice, hk0, List.take_zero]
          rw [hcn, pyRfind_nil sep (seps_ne_nil sep hsep)] at hi
          omega
        have hchd : (pySlice (strip_ws text) m).head? = some c := by
          rw [pySlice, head?_take_of_ne_zero _ _ hk]
          exact hhd
        have hk2 : pySliceLen (pySlice (strip_ws text) m).length
            ((i : Int) + (sep.length : Int)) ≠ 0 := by
          rw [pySliceLen, if_pos (by omega)]
          omega
        rw [hr]
        apply rstrip_ne_nil_of_head? _ c _ hpc
        rw [pySlice, head?_take_of_ne_zero _ _ hk2]
        exact hchd
    | none =>
      by_cases hsp : Int.fdiv m 3 < pyRfind (pySlice (strip_ws text) m) [' ']
      · rw [if_pos hsp]
        simp [List.append_eq_nil]
      · rw [if_neg hsp]
        simp [List.append_eq_nil]

/-! ### Fallback summary lemmas -/

theorem fallback_eq_nil_iff (r : PaperSummaryRequest) :
    fallback_summary r = [] ↔ strip_ws r.abstract = [] ∧ strip_ws r.title = [] := by
  simp only [fallback_summary]
  by_cases ha : strip_ws r.abstract = []
  · rw [if_pos ha]
    by_cases ht : strip_ws r.title = []
    · rw [if_pos ht]
      simp [ha, ht]
    · rw [if_neg ht]
      have : truncate_at_sentence (strip_ws r.title) FALLBACK_MAX_CHARS ≠ [] := by
        apply truncate_at_sentence_ne_nil _ _ (by rw [FALLBACK_MAX_CHARS]; omega)
        rw [strip_ws_eq_self _ (strip_ws_norm r.title)]
        exact ht
      simp [this, ht]
  · rw [if_neg ha]
    rw [if_neg ha]
    have : truncate_at_sentence (strip_ws r.abstract) FALLBACK_MAX_CHARS ≠ [] := by
      apply truncate_at_sentence_ne_nil _ _ (by rw [FALLBACK_MAX_CHARS]; omega)
      rw [strip_ws_eq_self _ (strip_ws_norm r.abstract)]
      exact ha
    simp [this, ha]

theorem fallback_length_le (r : PaperSummaryRequest) :
    (fallback_summary r).length ≤ 203 := by
  simp only [fallback_summary]
  by_cases ha : strip_ws r.abstract = []
  · rw [if_pos ha]
    by_cases ht : strip_ws r.title = []
    · rw [ht, if_pos rfl]; simp
    · rw [if_neg ht]
      have := truncate_at_sentence_length (strip_ws r.title) FALLBACK_MAX_CHARS
        (by rw [FALLBACK_MAX_CHARS]; omega)
      have h200 : (FALLBACK_MAX_CHARS).toNat = 200 := rfl
      omega
  · rw [if_neg ha, if_neg ha]
    have := truncate_at_sentence_length (strip_ws r.abstract) FALLBACK_MAX_CHARS
      (by rw [FALLBACK_MAX_CHARS]; omega)
    have h200 : (FALLBACK_MAX_CHARS).toNat = 200 := rfl
    omega

theorem fallback_noLB (r : PaperSummaryRequest) : noLB (fallback_summary r) := by
  simp only [fallback_summary]
  by_cases ha : strip_ws r.abstract = []
  · rw [if_pos ha]
    by_cases ht : strip_ws r.title = []
    · rw [ht, if_pos rfl]; exact noLB_nil
    · rw [if_neg ht]; exact truncate_at_sentence_noLB _ _
  · rw [if_neg ha, if_neg ha]
    exact truncate_at_sentence_noLB _ _

/-! ### Request-dict and batching lemmas -/

theorem getLast?_cons_or {α : Type} (a : α) (l : List α) (x : Option α) :
    ((a :: l).getLast?).or x = (l.getLast?).or (some a) := by
  cases l with
  | nil => simp
  | cons y ys =>
    rw [List.getLast?_cons_cons]
    obtain ⟨z, hz⟩ := Option.isSome_iff_exists.mp
      (List.getLast?_isSome.mpr (List.cons_ne_nil y ys))
    rw [hz]
    rfl

theorem dget_foldl_dset_req (l : List PaperSummaryRequest)
    (d : List (Key × PaperSummaryRequest)) (k : Key) :
    dget (l.foldl (fun d r => dset d r.key r) d) k =
      ((l.filter (fun r => decide (r.key = k))).getLast?).or (dget d k) := by
  induction l generalizing d with
  | nil => simp
  | cons r rest ih =>
    rw [List.foldl_cons, ih]
    by_cases hk : r.key = k
    · rw [List.filter_cons_of_pos (by simpa using hk), getLast?_cons_or]
      rw [← hk, dget_dset_self]
    · rw [List.filter_cons_of_neg (by simpa using hk), dget_dset_ne _ _ _ _ hk]

theorem dget_batchReqs (reqs : List PaperSummaryRequest) (bk : List Key) (k : Key)
    (hk : k ∈ bk) : dget (batchReqs reqs bk) k = lastReq reqs k := by
  rw [batchReqs, dget_foldl_dset_req, lastReq, dget_nil, Option.or_none]
  congr 1
  rw [List.filter_filter]
  apply List.filter_congr
  intro r _
  by_cases h : r.key = k
  · subst h
    simp [hk]
  · simp [h]

theorem lastReq_isSome_iff (reqs : List PaperSummaryRequest) (k : Key) :
    (lastReq reqs k).isSome ↔ ∃ r ∈ reqs, r.key = k := by
  rw [lastReq, List.getLast?_isSome]
  constructor
  · intro h
    obtain ⟨r, hr⟩ := List.exists_mem_of_ne_nil _ h
    have hm := List.mem_filter.mp hr
    exact ⟨r, hm.1, by simpa using hm.2⟩
  · rintro ⟨r, hr, hk⟩
    intro hnil
    have hm : r ∈ List.filter (fun r => decide (r.key = k)) reqs :=
      List.mem_filter.mpr ⟨hr, by simpa using hk⟩
    rw [hnil] at hm
    exact List.not_mem_nil r hm

theorem mem_foldl_dset_keys {α : Type} (g : PaperSummaryRequest → α)
    (l : List PaperSummaryRequest) (d : List (Key × α)) (k : Key) :
    (k ∈ (l.foldl (fun d r => dset d r.key (g r)) d).map Prod.fst) ↔
      (∃ r ∈ l, r.key = k) ∨ k ∈ d.map Prod.fst := by
  induction l generalizing d with
  | nil =>
    rw [List.foldl_nil]
    constructor
    · exact fun h => Or.inr h
    · rintro (⟨r, hr, _⟩ | h)
      · exact absurd hr (List.not_mem_nil r)
      · exact h
  | cons r rest ih =>
    rw [List.foldl_cons, ih, mem_dset_keys]
    constructor
    · rintro (⟨r1, hr1, hk⟩ | (h | h))
      · exact Or.inl ⟨r1, List.mem_cons_of_mem _ hr1, hk⟩
      · exact Or.inl ⟨r, List.mem_cons_self _ _, h.symm⟩
      · exact Or.inr h
    · rintro (⟨r1, hr1, hk⟩ | h)
      · rcases List.mem_cons.mp hr1 with h1 | h1
        · subst h1; exact Or.inr (Or.inl hk.symm)
        · exact Or.inl ⟨r1, h1, hk⟩
      · exact Or.inr (Or.inr h)

theorem nodup_foldl_dset_keys {α : Type} (g : PaperSummaryRequest → α)
    (l : List PaperSummaryRequest) (d : List (Key × α))
    (hd : (d.map Prod.fst).Nodup) :
    ((l.foldl (fun d r => dset d r.key (g r)) d).map Prod.fst).Nodup := by
  induction l generalizing d with
  | nil => exact hd
  | cons r rest ih => exact ih _ (nodup_dset_keys _ _ _ hd)

theorem mem_prepKeys (reqs : List PaperSummaryRequest) (k : Key) :
    k ∈ prepKeys reqs ↔ ∃ r ∈ reqs, r.key = k := by
  rw [prepKeys, mkPrep]
  rw [show (fun (d : List (Key × PrepItem)) (r : PaperSummaryRequest) =>
      dset d r.key ⟨r.key, strip_ws r.title, truncate_chars r.abstract 1200⟩) =
    (fun d r => dset d r.key
      ((fun r => (⟨r.key, strip_ws r.title, truncate_chars r.abstract 1200⟩ : PrepItem)) r))
    from rfl]
  rw [mem_foldl_dset_keys]
  simp

theorem nodup_prepKeys (reqs : List PaperSummaryRequest) : (prepKeys reqs).Nodup := by
  rw [prepKeys, mkPrep]
  rw [show (fun (d : List (Key × PrepItem)) (r : PaperSummaryRequest) =>
      dset d r.key ⟨r.key, strip_ws r.title, truncate_chars r.abstract 1200⟩) =
    (fun d r => dset d r.key
      ((fun r => (⟨r.key, strip_ws r.title, truncate_chars r.abstract 1200⟩ : PrepItem)) r))
    from rfl]
  exact nodup_foldl_dset_keys _ reqs [] (by simp)

theorem chunksFuel_zero {α : Type} (n : Nat) (l : List α) :
    chunksFuel n 0 l = [] := by cases l <;> rfl

theorem chunksFuel_succ_nil {α : Type} (n f : Nat) :
    chunksFuel n (f + 1) ([] : List α) = [] := rfl

theorem chunksFuel_succ_cons {α : Type} (n f : Nat) (c : α) (rest : List α) :
    chunksFuel n (f + 1) (c :: rest) =
      (c :: rest).take n :: chunksFuel n f ((c :: rest).drop n) := rfl

theorem chunksFuel_flatten {α : Type} (n : Nat) (hn : 0 < n) :
    ∀ (fuel : Nat) (l : List α), l.length ≤ fuel → (chunksFuel n fuel l).flatten = l := by
  intro fuel
  induction fuel with
  | zero =>
    intro l hl
    have : l = [] := List.eq_nil_of_length_eq_zero (by omega)
    subst this
    rfl
  | succ f ih =>
    intro l hl
    cases l with
    | nil => rfl
    | cons c rest =>
      rw [chunksFuel_succ_cons, List.flatten_cons, ih ((c :: rest).drop n)
        (by rw [List.length_drop]; simp at hl ⊢; omega)]
      exact List.take_append_drop n (c :: rest)

theorem chunksOf_flatten {α : Type} (n : Nat) (hn : 0 < n) (l : List α) :
    (chunksOf n l).flatten = l :=
  chunksFuel_flatten n hn l.length l le_rfl

theorem chunksFuel_sub {α : Type} (n : Nat) :
    ∀ (fuel : Nat) (l : List α) (bk : List α), bk ∈ chunksFuel n fuel l →
      ∀ a ∈ bk, a ∈ l := by
  intro fuel
  induction fuel with
  | zero => intro l bk h; rw [chunksFuel_zero] at h; exact absurd h (List.not_mem_nil bk)
  | succ f ih =>
    intro l bk h a ha
    cases l with
    | nil => rw [chunksFuel_succ_nil] at h; exact absurd h (List.not_mem_nil bk)
    | cons c rest =>
      rw [chunksFuel_succ_cons] at h
      rcases List.mem_cons.mp h with h | h
      · subst h; exact List.take_subset _ _ ha
      · exact List.drop_subset _ _ (ih _ _ h a ha)

theorem nodup_flatten_disjoint {α : Type} :
    ∀ (bks : List (List α)), bks.flatten.Nodup →
      ∀ (i j : Nat) (bi bj : List α), bks.get? i = some bi → bks.get? j = some bj →
        i ≠ j → ∀ a ∈ bi, a ∉ bj := by
  intro bks
  induction bks with
  | nil => intro _ i j bi bj hi; simp at hi
  | cons b rest ih =>
    intro hnd i j bi bj hi hj hne a ha
    rw [List.flatten_cons, List.nodup_append] at hnd
    cases i with
    | zero =>
      simp only [List.get?_cons_zero, Option.some.injEq] at hi
      subst hi
      cases j with
      | zero => exact absurd rfl hne
      | succ j1 =>
        rw [List.get?_cons_succ] at hj
        intro hb
        exact hnd.2.2 ha (List.mem_flatten.mpr ⟨bj, List.get?_mem hj, hb⟩)
    | succ i1 =>
      rw [List.get?_cons_succ] at hi
      cases j with
      | zero =>
        simp only [List.get?_cons_zero, Option.some.injEq] at hj
        subst hj
        intro hb
        exact hnd.2.2 hb (List.mem_flatten.mpr ⟨bi, List.get?_mem hi, ha⟩)
      | succ j1 =>
        exact ih hnd.2.1 i1 j1 bi bj hi hj (by omega) a ha

/-! ### Batch-loop characterization -/

theorem dget_fbFold (breqs : List (Key × PaperSummaryRequest)) (bk : List Key)
    (out : SDict) (k : Key) :
    dget (fbFold breqs bk out) k =
      if k ∈ bk ∧ (dget breqs k).isSome then (dget breqs k).map fallback_summary
      else dget out k := by
  induction bk generalizing out with
  | nil =>
    rw [if_neg (by simp)]
    rfl
  | cons k0 bk1 ih =>
    have hstep : fbFold breqs (k0 :: bk1) out =
        fbFold breqs bk1
          (match dget breqs k0 with
           | some r => dset out k0 (fallback_summary r)
           | none => out) := rfl
    rw [hstep, ih]
    by_cases h1 : k ∈ bk1 ∧ (dget breqs k).isSome
    · rw [if_pos h1, if_pos ⟨List.mem_cons_of_mem _ h1.1, h1.2⟩]
    · rw [if_neg h1]
      by_cases hk : k = k0
      · subst hk
        cases hb : dget breqs k with
        | some r =>
          rw [if_pos ⟨List.mem_cons_self _ _, rfl⟩]
          simp only [dget_dset_self, Option.map_some']
        | none =>
          rw [if_neg (by simp)]
      · cases hb : dget breqs k0 with
        | some r =>
          rw [dget_dset_ne _ _ _ _ (fun h => hk h.symm),
            if_neg (by
              rintro ⟨hm, hs⟩
              rcases List.mem_cons.mp hm with h | h
              · exact hk h
              · exact h1 ⟨h, hs⟩)]
        | none =>
          rw [if_neg (by
            rintro ⟨hm, hs⟩
            rcases List.mem_cons.mp hm with h | h
            · exact hk h
            · exact h1 ⟨h, hs⟩)]

theorem aiFold_fst (breqs : List (Key × PaperSummaryRequest)) (ai : SDict) (mc : Int)
    (bk : List Key) (st : SDict × Bool) (k : Key) :
    dget (aiFold breqs ai mc bk st).1 k =
      if k ∈ bk then
        (if aiVal ai k = [] then
          (if (dget breqs k).isSome then (dget breqs k).map fallback_summary
           else dget st.1 k)
         else some (truncate_chars (aiVal ai k) mc))
      else dget st.1 k := by
  induction bk generalizing st with
  | nil =>
    rw [if_neg (by simp)]
    rfl
  | cons k0 bk1 ih =>
    have hstep : aiFold breqs ai mc (k0 :: bk1) st =
        aiFold breqs ai mc bk1 (aiStep breqs ai mc st k0) := rfl
    rw [hstep, ih]
    by_cases h1 : k ∈ bk1
    · rw [if_pos h1, if_pos (List.mem_cons_of_mem _ h1)]
      by_cases hv : aiVal ai k = []
      · rw [if_pos hv, if_pos hv]
        by_cases hs : (dget breqs k).isSome
        · rw [if_pos hs, if_pos hs]
        · rw [if_neg hs, if_neg hs]
          -- the value at k is untouched by the k0 step when it does not write k,
          -- and when it does write k the breqs lookup must have been some
          by_cases hk : k = k0
          · subst hk
            simp only [aiStep]
            rw [if_pos hv]
            cases hb : dget breqs k with
            | some r => rw [hb] at hs; simp at hs
            | none => rfl
          · simp only [aiStep]
            by_cases hv0 : aiVal ai k0 = []
            · rw [if_pos hv0]
              cases hb : dget breqs k0 with
              | some r => exact dget_dset_ne _ _ _ _ (fun h => hk h.symm)
              | none => rfl
            · rw [if_neg hv0]
              exact dget_dset_ne _ _ _ _ (fun h => hk h.symm)
      · rw [if_neg hv, if_neg hv]
    · rw [if_neg h1]
      by_cases hk : k = k0
      · subst hk
        rw [if_pos (List.mem_cons_self _ _)]
        simp only [aiStep]
        by_cases hv : aiVal ai k = []
        · rw [if_pos hv, if_pos hv]
          cases hb : dget breqs k with
          | some r =>
            rw [if_pos (show (some r).isSome = true from rfl)]
            simp only [dget_dset_self, Option.map_some']
          | none =>
            rw [if_neg (by simp)]
        · rw [if_neg hv, if_neg hv, dget_dset_self]
      · rw [if_neg (by
          intro hm
          rcases List.mem_cons.mp hm with h | h
          · exact hk h
          · exact h1 h)]
        simp only [aiStep]
        by_cases hv0 : aiVal ai k0 = []
        · rw [if_pos hv0]
          cases hb : dget breqs k0 with
          | some r => exact dget_dset_ne _ _ _ _ (fun h => hk h.symm)
          | none => rfl
        · rw [if_neg hv0]
          exact dget_dset_ne _ _ _ _ (fun h => hk h.symm)

theorem aiStep_snd_true (breqs : List (Key × PaperSummaryRequest)) (ai : SDict) (mc : Int)
    (p : SDict × Bool) (k : Key) (h : p.2 = true) : (aiStep breqs ai mc p k).2 = true := by
  simp only [aiStep]
  by_cases hv : aiVal ai k = []
  · rw [if_pos hv]
    cases dget breqs k with
    | some r => rfl
    | none => exact h
  · rw [if_neg hv]; exact h

theorem aiFold_snd_true (breqs : List (Key × PaperSummaryRequest)) (ai : SDict) (mc : Int)
    (bk : List Key) (st : SDict × Bool) (h : st.2 = true) :
    (aiFold breqs ai mc bk st).2 = true := by
  induction bk generalizing st with
  | nil => exact h
  | cons k0 bk1 ih => exact ih _ (aiStep_snd_true _ _ _ _ _ h)

theorem processBatches_nil (c : Nat → Except Unit SDict) (mc : Int)
    (reqs : List PaperSummaryRequest) (n : Nat) (st : SDict × Bool) :
    processBatches c mc reqs n [] st = st := rfl

theorem processBatches_cons (c : Nat → Except Unit SDict) (mc : Int)
    (reqs : List PaperSummaryRequest) (n : Nat) (bk : List Key)
    (rest : List (List Key)) (st : SDict × Bool) :
    processBatches c mc reqs n (bk :: rest) st =
      match c n with
      | .error _ =>
        processBatches c mc reqs (n + 1) rest (fbFold (batchReqs reqs bk) bk st.1, true)
      | .ok ai =>
        processBatches c mc reqs (n + 1) rest (aiFold (batchReqs reqs bk) ai mc bk st) := rfl

theorem processBatches_fst_notin (c : Nat → Except Unit SDict) (mc : Int)
    (reqs : List PaperSummaryRequest) :
    ∀ (bks : List (List Key)) (n : Nat) (st : SDict × Bool) (k : Key),
      (∀ bk ∈ bks, k ∉ bk) →
      dget (processBatches c mc reqs n bks st).1 k = dget st.1 k := by
  intro bks
  induction bks with
  | nil => intro n st k _; rfl
  | cons bk rest ih =>
    intro n st k hnin
    cases hc : c n with
    | error e =>
      have hstep : processBatches c mc reqs n (bk :: rest) st =
          processBatches c mc reqs (n + 1) rest
            (fbFold (batchReqs reqs bk) bk st.1, true) := by
        rw [processBatches_cons, hc]
      rw [hstep, ih (n + 1) _ k (fun b hb => hnin b (List.mem_cons_of_mem _ hb))]
      rw [dget_fbFold, if_neg (by
        rintro ⟨hm, _⟩
        exact hnin bk (List.mem_cons_self _ _) hm)]
    | ok ai =>
      have hstep : processBatches c mc reqs n (bk :: rest) st =
          processBatches c mc reqs (n + 1) rest
            (aiFold (batchReqs reqs bk) ai mc bk st) := by
        rw [processBatches_cons, hc]
      rw [hstep, ih (n + 1) _ k (fun b hb => hnin b (List.mem_cons_of_mem _ hb))]
      rw [aiFold_fst, if_neg (hnin bk (List.mem_cons_self _ _))]

theorem processBatches_fst_in (c : Nat → Except Unit SDict) (mc : Int)
    (reqs : List PaperSummaryRequest) :
    ∀ (bks : List (List Key)) (j : Nat) (bk : List Key) (n : Nat) (st : SDict × Bool)
      (k : Key) (r : PaperSummaryRequest),
      bks.get? j = some bk → k ∈ bk →
      (∀ (i : Nat) (bk' : List Key), bks.get? i = some bk' → i ≠ j → k ∉ bk') →
      dget (batchReqs reqs bk) k = some r →
      dget (processBatches c mc reqs n bks st).1 k =
        (match c (n + j) with
         | .error _ => some (fallback_summary r)
         | .ok ai =>
           if aiVal ai k = [] then some (fallback_summary r)
           else some (truncate_chars (aiVal ai k) mc)) := by
  intro bks
  induction bks with
  | nil => intro j bk n st k r hj; simp at hj
  | cons b0 rest ih =>
    intro j bk n st k r hj hk huniq hr
    cases j with
    | zero =>
      simp only [List.get?_cons_zero, Option.some.injEq] at hj
      subst hj
      have hnin : ∀ b ∈ rest, k ∉ b := by
        intro b hb
        obtain ⟨i, hi⟩ := List.get?_of_mem hb
        exact huniq (i + 1) b (by rw [List.get?_cons_succ]; exact hi) (by omega)
      rw [Nat.add_zero]
      cases hc : c n with
      | error e =>
        have hstep : processBatches c mc reqs n (b0 :: rest) st =
            processBatches c mc reqs (n + 1) rest
              (fbFold (batchReqs reqs b0) b0 st.1, true) := by
          rw [processBatches_cons, hc]
        rw [hstep, processBatches_fst_notin c mc reqs rest (n + 1) _ k hnin]
        rw [dget_fbFold, if_pos ⟨hk, by rw [hr]; rfl⟩, hr]
        rfl
      | ok ai =>
        have hstep : processBatches c mc reqs n (b0 :: rest) st =
            processBatches c mc reqs (n + 1) rest
              (aiFold (batchReqs reqs b0) ai mc b0 st) := by
          rw [processBatches_cons, hc]
        rw [hstep, processBatches_fst_notin c mc reqs rest (n + 1) _ k hnin]
        rw [aiFold_fst, if_pos hk]
        by_cases hv : aiVal ai k = []
        · rw [if_pos hv, if_pos (by rw [hr]; rfl), hr]
          simp [hv]
        · rw [if_neg hv]
          simp [hv]
    | succ j1 =>
      rw [List.get?_cons_succ] at hj
      have hk0 : k ∉ b0 :=
        huniq 0 b0 (by rw [List.get?_cons_zero]) (by omega)
      have huniq' : ∀ (i : Nat) (bk' : List Key), rest.get? i = some bk' → i ≠ j1 → k ∉ bk' :=
        fun i bk' hi hij =>
          huniq (i + 1) bk' (by rw [List.get?_cons_succ]; exact hi) (by omega)
      have harith : (n + 1) + j1 = n + (j1 + 1) := by omega
      cases hc : c n with
      | error e =>
        have hstep : processBatches c mc reqs n (b0 :: rest) st =
            processBatches c mc reqs (n + 1) rest
              (fbFold (batchReqs reqs b0) b0 st.1, true) := by
          rw [processBatches_cons, hc]
        rw [hstep, ih j1 bk (n + 1) _ k r hj hk huniq' hr, harith]
      | ok ai =>
        have hstep : processBatches c mc reqs n (b0 :: rest) st =
            processBatches c mc reqs (n + 1) rest
              (aiFold (batchReqs reqs b0) ai mc b0 st) := by
          rw [processBatches_cons, hc]
        rw [hstep, ih j1 bk (n + 1) _ k r hj hk huniq' hr, harith]

theorem processBatches_snd_true (c : Nat → Except Unit SDict) (mc : Int)
    (reqs : List PaperSummaryRequest) :
    ∀ (bks : List (List Key)) (n : Nat) (st : SDict × Bool), st.2 = true →
      (processBatches c mc reqs n bks st).2 = true := by
  intro bks
  induction bks with
  | nil => intro n st h; exact h
  | cons bk rest ih =>
    intro n st h
    cases hc : c n with
    | error e =>
      have hstep : processBatches c mc reqs n (bk :: rest) st =
          processBatches c mc reqs (n + 1) rest
            (fbFold (batchReqs reqs bk) bk st.1, true) := by
        rw [processBatches_cons, hc]
      rw [hstep]
      exact ih (n + 1) _ rfl
    | ok ai =>
      have hstep : processBatches c mc reqs n (bk :: rest) st =
          processBatches c mc reqs (n + 1) rest
            (aiFold (batchReqs reqs bk) ai mc bk st) := by
        rw [processBatches_cons, hc]
      rw [hstep]
      exact ih (n + 1) _ (aiFold_snd_true _ _ _ _ _ h)

theorem processBatches_snd_error (c : Nat → Except Unit SDict) (mc : Int)
    (reqs : List PaperSummaryRequest) :
    ∀ (bks : List (List Key)) (j : Nat) (bk : List Key) (n : Nat) (st : SDict × Bool)
      (e : Unit), bks.get? j = some bk → c (n + j) = .error e →
      (processBatches c mc reqs n bks st).2 = true := by
  intro bks
  induction bks with
  | nil => intro j bk n st e hj; simp at hj
  | cons b0 rest ih =>
    intro j bk n st e hj he
    cases j with
    | zero =>
      rw [Nat.add_zero] at he
      have hstep : processBatches c mc reqs n (b0 :: rest) st =
          processBatches c mc reqs (n + 1) rest
            (fbFold (batchReqs reqs b0) b0 st.1, true) := by
        rw [processBatches_cons, he]
      rw [hstep]
      exact processBatches_snd_true c mc reqs rest (n + 1) _ rfl
    | succ j1 =>
      rw [List.get?_cons_succ] at hj
      have he' : c ((n + 1) + j1) = .error e := by
        rw [show (n + 1) + j1 = n + (j1 + 1) from by omega]
        exact he
      cases hc : c n with
      | error e0 =>
        have hstep : processBatches c mc reqs n (b0 :: rest) st =
            processBatches c mc reqs (n + 1) rest
              (fbFold (batchReqs reqs b0) b0 st.1, true) := by
          rw [processBatches_cons, hc]
        rw [hstep]
        exact ih j1 bk (n + 1) _ e hj he'
      | ok ai =>
        have hstep : processBatches c mc reqs n (b0 :: rest) st =
            processBatches c mc reqs (n + 1) rest
              (aiFold (batchReqs reqs b0) ai mc b0 st) := by
          rw [processBatches_cons, hc]
        rw [hstep]
        exact ih j1 bk (n + 1) _ e hj he'

theorem summarize_batch_ai (c : Nat → Except Unit SDict) (mc : Int)
    (reqs : List PaperSummaryRequest) (hne : reqs ≠ []) :
    summarize_batch true c mc reqs =
      ((processBatches c mc reqs 0 (chunksOf BATCH_SIZE (prepKeys reqs)) ([], false)).1,
       some (processBatches c mc reqs 0 (chunksOf BATCH_SIZE (prepKeys reqs)) ([], false)).2) := by
  simp only [summarize_batch]
  rw [if_neg hne, if_neg (by simp)]

theorem summarize_batch_noai (c : Nat → Except Unit SDict) (mc : Int)
    (reqs : List PaperSummaryRequest) (hne : reqs ≠ []) :
    summarize_batch false c mc reqs =
      (reqs.foldl (fun o r =>
        let fb := fallback_summary r
        if fb = [] then o else dset o r.key fb) [], some true) := by
  simp only [summarize_batch]
  rw [if_neg hne]
  simp

/-! ### Key and value invariants of the produced mappings -/

theorem dget_noai_fold (l : List PaperSummaryRequest) (d : SDict) (k : Key) :
    (dget (l.foldl (fun o r =>
        let fb := fallback_summary r
        if fb = [] then o else dset o r.key fb) d) k).isSome ↔
      (∃ r ∈ l, r.key = k ∧ fallback_summary r ≠ []) ∨ (dget d k).isSome := by
  induction l generalizing d with
  | nil =>
    rw [List.foldl_nil]
    constructor
    · exact fun h => Or.inr h
    · rintro (⟨r, hr, _⟩ | h)
      · exact absurd hr (List.not_mem_nil r)
      · exact h
  | cons r rest ih =>
    rw [List.foldl_cons, ih]
    by_cases hfb : fallback_summary r = []
    · simp only [hfb, if_pos rfl]
      constructor
      · rintro (⟨r1, h1, h2, h3⟩ | h)
        · exact Or.inl ⟨r1, List.mem_cons_of_mem _ h1, h2, h3⟩
        · exact Or.inr h
      · rintro (⟨r1, h1, h2, h3⟩ | h)
        · rcases List.mem_cons.mp h1 with h4 | h4
          · subst h4; exact absurd hfb h3
          · exact Or.inl ⟨r1, h4, h2, h3⟩
        · exact Or.inr h
    · rw [if_neg hfb]
      by_cases hk : r.key = k
      · subst hk
        rw [dget_dset_self]
        constructor
        · intro _; exact Or.inl ⟨r, List.mem_cons_self _ _, rfl, hfb⟩
        · intro _; exact Or.inr rfl
      · rw [dget_dset_ne _ _ _ _ hk]
        constructor
        · rintro (⟨r1, h1, h2, h3⟩ | h)
          · exact Or.inl ⟨r1, List.mem_cons_of_mem _ h1, h2, h3⟩
          · exact Or.inr h
        · rintro (⟨r1, h1, h2, h3⟩ | h)
          · rcases List.mem_cons.mp h1 with h4 | h4
            · subst h4; exact absurd h2 hk
            · exact Or.inl ⟨r1, h4, h2, h3⟩
          · exact Or.inr h

theorem noai_fold_keys_nodup (l : List PaperSummaryRequest) :
    ∀ (d : SDict), ((d.map Prod.fst).Nodup) →
      (((l.foldl (fun o r =>
          let fb := fallback_summary r
          if fb = [] then o else dset o r.key fb) d)).map Prod.fst).Nodup := by
  induction l with
  | nil => intro d hd; exact hd
  | cons r rest ih =>
    intro d hd
    rw [List.foldl_cons]
    by_cases hfb : fallback_summary r = []
    · simp only [hfb, if_pos rfl]
      exact ih d hd
    · rw [if_neg hfb]
      exact ih _ (nodup_dset_keys _ _ _ hd)

theorem noai_fold_keys_sub (l : List PaperSummaryRequest) :
    ∀ (d : SDict) (k : Key),
      k ∈ ((l.foldl (fun o r =>
          let fb := fallback_summary r
          if fb = [] then o else dset o r.key fb) d)).map Prod.fst →
      (∃ r ∈ l, r.key = k) ∨ k ∈ d.map Prod.fst := by
  induction l with
  | nil => intro d k h; exact Or.inr h
  | cons r rest ih =>
    intro d k h
    rw [List.foldl_cons] at h
    by_cases hfb : fallback_summary r = []
    · simp only [hfb, if_pos rfl] at h
      rcases ih d k h with ⟨r1, h1, h2⟩ | h1
      · exact Or.inl ⟨r1, List.mem_cons_of_mem _ h1, h2⟩
      · exact Or.inr h1
    · rw [if_neg hfb] at h
      rcases ih _ k h with ⟨r1, h1, h2⟩ | h1
      · exact Or.inl ⟨r1, List.mem_cons_of_mem _ h1, h2⟩
      · rcases (mem_dset_keys d k r.key _).mp h1 with h2 | h2
        · exact Or.inl ⟨r, List.mem_cons_self _ _, h2.symm⟩
        · exact Or.inr h2

theorem noai_fold_values (P : List Char → Prop) (l : List PaperSummaryRequest)
    (hfb : ∀ r, P (fallback_summary r)) :
    ∀ (d : SDict), (∀ p ∈ d, P p.2) →
      ∀ p ∈ l.foldl (fun o r =>
          let fb := fallback_summary r
          if fb = [] then o else dset o r.key fb) d, P p.2 := by
  induction l with
  | nil => intro d hd; exact hd
  | cons r rest ih =>
    intro d hd
    rw [List.foldl_cons]
    by_cases hfb1 : fallback_summary r = []
    · simp only [hfb1, if_pos rfl]
      exact ih d hd
    · rw [if_neg hfb1]
      exact ih _ (dset_values P d _ _ hd (hfb r))

theorem fbFold_keys_nodup (breqs : List (Key × PaperSummaryRequest)) (bk : List Key) :
    ∀ (out : SDict), ((out.map Prod.fst).Nodup) →
      ((fbFold breqs bk out).map Prod.fst).Nodup := by
  induction bk with
  | nil => intro out h; exact h
  | cons k0 bk1 ih =>
    intro out h
    have hstep : fbFold breqs (k0 :: bk1) out =
        fbFold breqs bk1
          (match dget breqs k0 with
           | some r => dset out k0 (fallback_summary r)
           | none => out) := rfl
    rw [hstep]
    cases dget breqs k0 with
    | some r => exact ih _ (nodup_dset_keys _ _ _ h)
    | none => exact ih _ h

theorem fbFold_keys_sub (breqs : List (Key × PaperSummaryRequest)) (bk : List Key) :
    ∀ (out : SDict) (k : Key), k ∈ (fbFold breqs bk out).map Prod.fst →
      k ∈ bk ∨ k ∈ out.map Prod.fst := by
  induction bk with
  | nil => intro out k h; exact Or.inr h
  | cons k0 bk1 ih =>
    intro out k h
    have hstep : fbFold breqs (k0 :: bk1) out =
        fbFold breqs bk1
          (match dget breqs k0 with
           | some r => dset out k0 (fallback_summary r)
           | none => out) := rfl
    rw [hstep] at h
    cases hb : dget breqs k0 with
    | some r =>
      rw [hb] at h
      rcases ih _ k h with h1 | h1
      · exact Or.inl (List.mem_cons_of_mem _ h1)
      · rcases (mem_dset_keys out k k0 _).mp h1 with h2 | h2
        · exact Or.inl (by rw [h2]; exact List.mem_cons_self _ _)
        · exact Or.inr h2
    | none =>
      rw [hb] at h
      rcases ih _ k h with h1 | h1
      · exact Or.inl (List.mem_cons_of_mem _ h1)
      · exact Or.inr h1

theorem fbFold_values (P : List Char → Prop) (breqs : List (Key × PaperSummaryRequest))
    (bk : List Key) (hfb : ∀ r, P (fallback_summary r)) :
    ∀ (out : SDict), (∀ p ∈ out, P p.2) → ∀ p ∈ fbFold breqs bk out, P p.2 := by
  induction bk with
  | nil => intro out h; exact h
  | cons k0 bk1 ih =>
    intro out h
    have hstep : fbFold breqs (k0 :: bk1) out =
        fbFold breqs bk1
          (match dget breqs k0 with
           | some r => dset out k0 (fallback_summary r)
           | none => out) := rfl
    rw [hstep]
    cases dget breqs k0 with
    | some r => exact ih _ (dset_values P out _ _ h (hfb r))
    | none => exact ih _ h

theorem aiFold_keys_nodup (breqs : List (Key × PaperSummaryRequest)) (ai : SDict)
    (mc : Int) (bk : List Key) :
    ∀ (st : SDict × Bool), ((st.1.map Prod.fst).Nodup) →
      (((aiFold breqs ai mc bk st).1.map Prod.fst)).Nodup := by
  induction bk with
  | nil => intro st h; exact h
  | cons k0 bk1 ih =>
    intro st h
    have hstep : aiFold breqs ai mc (k0 :: bk1) st =
        aiFold breqs ai mc bk1 (aiStep breqs ai mc st k0) := rfl
    rw [hstep]
    apply ih
    simp only [aiStep]
    by_cases hv : aiVal ai k0 = []
    · rw [if_pos hv]
      cases dget breqs k0 with
      | some r => exact nodup_dset_keys _ _ _ h
      | none => exact h
    · rw [if_neg hv]
      exact nodup_dset_keys _ _ _ h

theorem aiFold_keys_sub (breqs : List (Key × PaperSummaryRequest)) (ai : SDict)
    (mc : Int) (bk : List Key) :
    ∀ (st : SDict × Bool) (k : Key), k ∈ (aiFold breqs ai mc bk st).1.map Prod.fst →
      k ∈ bk ∨ k ∈ st.1.map Prod.fst := by
  induction bk with
  | nil => intro st k h; exact Or.inr h
  | cons k0 bk1 ih =>
    intro st k h
    have hstep : aiFold breqs ai mc (k0 :: bk1) st =
        aiFold breqs ai mc bk1 (aiStep breqs ai mc st k0) := rfl
    rw [hstep] at h
    rcases ih _ k h with h1 | h1
    · exact Or.inl (List.mem_cons_of_mem _ h1)
    · simp only [aiStep] at h1
      by_cases hv : aiVal ai k0 = []
      · rw [if_pos hv] at h1
        cases hb : dget breqs k0 with
        | some r =>
          rw [hb] at h1
          rcases (mem_dset_keys st.1 k k0 _).mp h1 with h2 | h2
          · exact Or.inl (by rw [h2]; exact List.mem_cons_self _ _)
          · exact Or.inr h2
        | none =>
          rw [hb] at h1
          exact Or.inr h1
      · rw [if_neg hv] at h1
        rcases (mem_dset_keys st.1 k k0 _).mp h1 with h2 | h2
        · exact Or.inl (by rw [h2]; exact List.mem_cons_self _ _)
        · exact Or.inr h2

theorem aiFold_values (P : List Char → Prop) (breqs : List (Key × PaperSummaryRequest))
    (ai : SDict) (mc : Int) (bk : List Key)
    (hfb : ∀ r, P (fallback_summary r)) (hai : ∀ v, P (truncate_chars v mc)) :
    ∀ (st : SDict × Bool), (∀ p ∈ st.1, P p.2) → ∀ p ∈ (aiFold breqs ai mc bk st).1, P p.2 := by
  induction bk with
  | nil => intro st h; exact h
  | cons k0 bk1 ih =>
    intro st h
    have hstep : aiFold breqs ai mc (k0 :: bk1) st =
        aiFold breqs ai mc bk1 (aiStep breqs ai mc st k0) := rfl
    rw [hstep]
    apply ih
    simp only [aiStep]
    by_cases hv : aiVal ai k0 = []
    · rw [if_pos hv]
      cases dget breqs k0 with
      | some r => exact dset_values P st.1 _ _ h (hfb r)
      | none => exact h
    · rw [if_neg hv]
      exact dset_values P st.1 _ _ h (hai _)

theorem processBatches_keys_nodup (c : Nat → Except Unit SDict) (mc : Int)
    (reqs : List PaperSummaryRequest) :
    ∀ (bks : List (List Key)) (n : Nat) (st : SDict × Bool),
      ((st.1.map Prod.fst).Nodup) →
      ((processBatches c mc reqs n bks st).1.map Prod.fst).Nodup := by
  intro bks
  induction bks with
  | nil => intro n st h; exact h
  | cons bk rest ih =>
    intro n st h
    cases hc : c n with
    | error e =>
      rw [show processBatches c mc reqs n (bk :: rest) st =
          processBatches c mc reqs (n + 1) rest
            (fbFold (batchReqs reqs bk) bk st.1, true) from by rw [processBatches_cons, hc]]
      exact ih (n + 1) _ (fbFold_keys_nodup _ _ _ h)
    | ok ai =>
      rw [show processBatches c mc reqs n (bk :: rest) st =
          processBatches c mc reqs (n + 1) rest
            (aiFold (batchReqs reqs bk) ai mc bk st) from by rw [processBatches_cons, hc]]
      exact ih (n + 1) _ (aiFold_keys_nodup _ _ _ _ _ h)

theorem processBatches_keys_sub (c : Nat → Except Unit SDict) (mc : Int)
    (reqs : List PaperSummaryRequest) :
    ∀ (bks : List (List Key)) (n : Nat) (st : SDict × Bool) (k : Key),
      k ∈ (processBatches c mc reqs n bks st).1.map Prod.fst →
      (∃ bk ∈ bks, k ∈ bk) ∨ k ∈ st.1.map Prod.fst := by
  intro bks
  induction bks with
  | nil => intro n st k h; exact Or.inr h
  | cons bk rest ih =>
    intro n st k h
    cases hc : c n with
    | error e =>
      rw [show processBatches c mc reqs n (bk :: rest) st =
          processBatches c mc reqs (n + 1) rest
            (fbFold (batchReqs reqs bk) bk st.1, true) from by rw [processBatches_cons, hc]] at h
      rcases ih (n + 1) _ k h with ⟨b, hb, hkb⟩ | h1
      · exact Or.inl ⟨b, List.mem_cons_of_mem _ hb, hkb⟩
      · rcases fbFold_keys_sub _ _ _ k h1 with h2 | h2
        · exact Or.inl ⟨bk, List.mem_cons_self _ _, h2⟩
        · exact Or.inr h2
    | ok ai =>
      rw [show processBatches c mc reqs n (bk :: rest) st =
          processBatches c mc reqs (n + 1) rest
            (aiFold (batchReqs reqs bk) ai mc bk st) from by rw [processBatches_cons, hc]] at h
      rcases ih (n + 1) _ k h with ⟨b, hb, hkb⟩ | h1
      · exact Or.inl ⟨b, List.mem_cons_of_mem _ hb, hkb⟩
      · rcases aiFold_keys_sub _ _ _ _ _ k h1 with h2 | h2
        · exact Or.inl ⟨bk, List.mem_cons_self _ _, h2⟩
        · exact Or.inr h2

theorem processBatches_values (P : List Char → Prop) (c : Nat → Except Unit SDict)
    (mc : Int) (reqs : List PaperSummaryRequest)
    (hfb : ∀ r, P (fallback_summary r)) (hai : ∀ v, P (truncate_chars v mc)) :
    ∀ (bks : List (List Key)) (n : Nat) (st : SDict × Bool),
      (∀ p ∈ st.1, P p.2) → ∀ p ∈ (processBatches c mc reqs n bks st).1, P p.2 := by
  intro bks
  induction bks with
  | nil => intro n st h; exact h
  | cons bk rest ih =>
    intro n st h
    cases hc : c n with
    | error e =>
      rw [show processBatches c mc reqs n (bk :: rest) st =
          processBatches c mc reqs (n + 1) rest
            (fbFold (batchReqs reqs bk) bk st.1, true) from by rw [processBatches_cons, hc]]
      exact ih (n + 1) _ (fbFold_values P _ _ hfb _ h)
    | ok ai =>
      rw [show processBatches c mc reqs n (bk :: rest) st =
          processBatches c mc reqs (n + 1) rest
            (aiFold (batchReqs reqs bk) ai mc bk st) from by rw [processBatches_cons, hc]]
      exact ih (n + 1) _ (aiFold_values P _ _ _ _ hfb hai _ h)

/-! ### Deduplication characterization -/

theorem firstLongestFrom_cons {V : Type} (tlen : V → Nat) (cur x : V) (xs : List V) :
    firstLongestFrom tlen cur (x :: xs) =
      firstLongestFrom tlen (if tlen cur < tlen x then x else cur) xs := rfl

theorem firstLongestFrom_ge {V : Type} (tlen : V → Nat) :
    ∀ (l : List V) (cur : V),
      tlen cur ≤ tlen (firstLongestFrom tlen cur l) ∧
      ∀ w ∈ l, tlen w ≤ tlen (firstLongestFrom tlen cur l) := by
  intro l
  induction l with
  | nil => intro cur; exact ⟨le_rfl, fun w hw => absurd hw (List.not_mem_nil w)⟩
  | cons x xs ih =>
    intro cur
    rw [firstLongestFrom_cons]
    have hcur : tlen cur ≤ tlen (if tlen cur < tlen x then x else cur) := by
      by_cases h : tlen cur < tlen x
      · rw [if_pos h]; omega
      · rw [if_neg h]
    have hx : tlen x ≤ tlen (if tlen cur < tlen x then x else cur) := by
      by_cases h : tlen cur < tlen x
      · rw [if_pos h]
      · rw [if_neg h]; omega
    obtain ⟨h1, h2⟩ := ih (if tlen cur < tlen x then x else cur)
    refine ⟨le_trans hcur h1, fun w hw => ?_⟩
    rcases List.mem_cons.mp hw with h | h
    · subst h; exact le_trans hx h1
    · exact h2 w h

theorem dedupStep_none {V : Type} (tlen : V → Nat) (d : List (Key × V)) (p : Key × V)
    (h : dget d p.1 = none) : dedupStep tlen d p = dset d p.1 p.2 := by
  rw [dedupStep, h]

theorem dedupStep_some {V : Type} (tlen : V → Nat) (d : List (Key × V)) (p : Key × V)
    (cur : V) (h : dget d p.1 = some cur) :
    dedupStep tlen d p = if tlen cur < tlen p.2 then dset d p.1 p.2 else d := by
  rw [dedupStep, h]

theorem dedupLongest_fold_get {V : Type} (tlen : V → Nat) :
    ∀ (l : List (Key × V)) (d : List (Key × V)) (k : Key),
      dget (l.foldl (dedupStep tlen) d) k =
      (match dget d k with
       | none => firstLongest tlen ((l.filter (fun p => decide (p.1 = k))).map Prod.snd)
       | some cur =>
         some (firstLongestFrom tlen cur
           ((l.filter (fun p => decide (p.1 = k))).map Prod.snd))) := by
  intro l
  induction l with
  | nil =>
    intro d k
    rw [List.foldl_nil, List.filter_nil, List.map_nil]
    cases hd : dget d k with
    | none => rfl
    | some cur => rfl
  | cons p rest ih =>
    intro d k
    rw [List.foldl_cons]
    by_cases hk : p.1 = k
    · rw [List.filter_cons_of_pos (by simpa using hk), List.map_cons]
      cases hd : dget d k with
      | none =>
        have hd1 : dget d p.1 = none := by rw [hk]; exact hd
        rw [dedupStep_none tlen d p hd1, ih (dset d p.1 p.2) k]
        rw [show dget (dset d p.1 p.2) k = some p.2 from by
          rw [hk]; exact dget_dset_self d k p.2]
        rfl
      | some cur =>
        have hd1 : dget d p.1 = some cur := by rw [hk]; exact hd
        rw [dedupStep_some tlen d p cur hd1]
        by_cases hlt : tlen cur < tlen p.2
        · rw [if_pos hlt, ih (dset d p.1 p.2) k]
          rw [show dget (dset d p.1 p.2) k = some p.2 from by
            rw [hk]; exact dget_dset_self d k p.2]
          show some (firstLongestFrom tlen p.2
              ((rest.filter (fun p => decide (p.1 = k))).map Prod.snd)) =
            some (firstLongestFrom tlen cur
              (p.2 :: (rest.filter (fun p => decide (p.1 = k))).map Prod.snd))
          rw [firstLongestFrom_cons, if_pos hlt]
        · rw [if_neg hlt, ih d k, hd]
          show some (firstLongestFrom tlen cur
              ((rest.filter (fun p => decide (p.1 = k))).map Prod.snd)) =
            some (firstLongestFrom tlen cur
              (p.2 :: (rest.filter (fun p => decide (p.1 = k))).map Prod.snd))
          rw [firstLongestFrom_cons, if_neg hlt]
    · rw [List.filter_cons_of_neg (by simpa using hk)]
      cases hp : dget d p.1 with
      | none =>
        rw [dedupStep_none tlen d p hp, ih (dset d p.1 p.2) k, dget_dset_ne d k p.1 p.2 hk]
      | some cur =>
        rw [dedupStep_some tlen d p cur hp]
        by_cases hlt : tlen cur < tlen p.2
        · rw [if_pos hlt, ih (dset d p.1 p.2) k, dget_dset_ne d k p.1 p.2 hk]
        · rw [if_neg hlt, ih d k]

theorem dedupLongest_fold_keys_nodup {V : Type} (tlen : V → Nat) :
    ∀ (l : List (Key × V)) (d : List (Key × V)), ((d.map Prod.fst).Nodup) →
      ((l.foldl (dedupStep tlen) d).map Prod.fst).Nodup := by
  intro l
  induction l with
  | nil => intro d hd; exact hd
  | cons p rest ih =>
    intro d hd
    rw [List.foldl_cons]
    cases hp : dget d p.1 with
    | none =>
      rw [dedupStep_none tlen d p hp]
      exact ih _ (nodup_dset_keys _ _ _ hd)
    | some cur =>
      rw [dedupStep_some tlen d p cur hp]
      by_cases hlt : tlen cur < tlen p.2
      · rw [if_pos hlt]; exact ih _ (nodup_dset_keys _ _ _ hd)
      · rw [if_neg hlt]; exact ih _ hd

theorem dedupLongest_fold_keys_mem {V : Type} (tlen : V → Nat) :
    ∀ (l : List (Key × V)) (d : List (Key × V)) (k : Key),
      (k ∈ (l.foldl (dedupStep tlen) d).map Prod.fst) ↔
      k ∈ l.map Prod.fst ∨ k ∈ d.map Prod.fst := by
  intro l
  induction l with
  | nil =>
    intro d k
    rw [List.foldl_nil, List.map_nil]
    exact ⟨fun h => Or.inr h, fun h => h.elim (fun h => absurd h (List.not_mem_nil k)) id⟩
  | cons p rest ih =>
    intro d k
    rw [List.foldl_cons, List.map_cons, List.mem_cons]
    have hstep : ∀ (d' : List (Key × V)),
        (k ∈ d'.map Prod.fst ↔ k = p.1 ∨ k ∈ d.map Prod.fst) →
        ((k ∈ (rest.foldl (dedupStep tlen) d').map Prod.fst) ↔
          (k = p.1 ∨ k ∈ rest.map Prod.fst) ∨ k ∈ d.map Prod.fst) := by
      intro d' hd'
      rw [ih d' k, hd']
      tauto
    cases hp : dget d p.1 with
    | none =>
      rw [dedupStep_none tlen d p hp]
      exact hstep _ (by rw [mem_dset_keys])
    | some cur =>
      rw [dedupStep_some tlen d p cur hp]
      by_cases hlt : tlen cur < tlen p.2
      · rw [if_pos hlt]
        exact hstep _ (by rw [mem_dset_keys])
      · rw [if_neg hlt]
        apply hstep
        constructor
        · exact fun h => Or.inr h
        · rintro (h | h)
          · rw [h]
            exact (dget_isSome_iff_mem d p.1).mp (by rw [hp]; rfl)
          · exact h

/-! ### Claims -/

/-- Claim C7: for every list of extraction candidates, deduplication keeps
exactly one record per distinct identifier (keys are distinct and are
exactly the input identifiers), and the retained value for an identifier is
the first candidate of maximal title length among those sharing it — so a
strictly longest title always wins, and on equal lengths the first seen is
kept. -/
theorem claim_C7_dedup_longest_first
    (l : List (Key × (List Char × Option (List Char)))) (k : Key) :
    ((dedupLongest candTitleLen l).map Prod.fst).Nodup ∧
    (k ∈ (dedupLongest candTitleLen l).map Prod.fst ↔ k ∈ l.map Prod.fst) ∧
    dget (dedupLongest candTitleLen l) k =
      firstLongest candTitleLen ((l.filter (fun p => decide (p.1 = k))).map Prod.snd) ∧
    (∀ v, dget (dedupLongest candTitleLen l) k = some v →
      ∀ w ∈ (l.filter (fun p => decide (p.1 = k))).map Prod.snd,
        candTitleLen w ≤ candTitleLen v) := by
  have hget : dget (dedupLongest candTitleLen l) k =
      firstLongest candTitleLen ((l.filter (fun p => decide (p.1 = k))).map Prod.snd) := by
    rw [dedupLongest, dedupLongest_fold_get candTitleLen l [] k]
    rfl
  refine ⟨?_, ?_, hget, ?_⟩
  · rw [dedupLongest]
    exact dedupLongest_fold_keys_nodup candTitleLen l [] (by simp)
  · rw [dedupLongest, dedupLongest_fold_keys_mem candTitleLen l [] k]
    simp
  · intro v hv w hw
    rw [hget] at hv
    cases hl : (l.filter (fun p => decide (p.1 = k))).map Prod.snd with
    | nil => rw [hl] at hw; exact absurd hw (List.not_mem_nil w)
    | cons x xs =>
      rw [hl] at hv hw
      rw [show firstLongest candTitleLen (x :: xs) =
        some (firstLongestFrom candTitleLen x xs) from rfl, Option.some.injEq] at hv
      subst hv
      rcases List.mem_cons.mp hw with h | h
      · rw [h]; exact (firstLongestFrom_ge candTitleLen xs x).1
      · exact (firstLongestFrom_ge candTitleLen xs x).2 w h

/-- Claim C9: whenever the feed URL contains a dated-listing path fragment
(the date regex matches, yielding date `d`), the published-time resolver
returns exactly `d` at noon UTC, and the result does not depend on the
current clock value passed in. -/
theorem claim_C9_dated_listing_noon
    (now now2 url d : List Char) (h : hfDateSearch url = some d) :
    published_at_for_feed now url = d ++ "T12:00:00Z".toList ∧
    published_at_for_feed now url = published_at_for_feed now2 url := by
  rw [published_at_for_feed, published_at_for_feed, h]
  exact ⟨rfl, rfl⟩

/-- Claim C9 witness: the dated URL of the spec example resolves to
`2024-05-01T12:00:00Z` regardless of the two distinct clock values. -/
theorem claim_C9_witness :
    hfDateSearch "https://huggingface.co/papers/date/2024-05-01".toList =
      some "2024-05-01".toList ∧
    published_at_for_feed "2031-01-01T00:00:00Z".toList
        "https://huggingface.co/papers/date/2024-05-01".toList =
      "2024-05-01".toList ++ "T12:00:00Z".toList ∧
    published_at_for_feed "2031-01-01T00:00:00Z".toList
        "https://huggingface.co/papers/date/2024-05-01".toList =
      published_at_for_feed "1999-12-31T23:59:59Z".toList
        "https://huggingface.co/papers/date/2024-05-01".toList := by
  have h : hfDateSearch "https://huggingface.co/papers/date/2024-05-01".toList =
      some "2024-05-01".toList := by decide
  have := claim_C9_dated_listing_noon "2031-01-01T00:00:00Z".toList
    "1999-12-31T23:59:59Z".toList
    "https://huggingface.co/papers/date/2024-05-01".toList "2024-05-01".toList h
  exact ⟨h, this.1, this.2⟩

/-- Claim C10 counterexample: with the negative limit `-1` (Python slices
accept negative stops), `truncate_by_chars` is not idempotent: one
application of limit `-1` to `"ab c"` gives `"ab"`, a second gives `"a"`. -/
theorem claim_C10_counterexample :
    truncate_chars (truncate_chars "ab c".toList (-1)) (-1) ≠
      truncate_chars "ab c".toList (-1) := by decide

/-- Claim C10 (amended): `truncate_by_chars` is idempotent for every text
and every non-negative limit. -/
theorem claim_C10_amended_idempotent (text : List Char) (m : Int) (h : 0 ≤ m) :
    truncate_chars (truncate_chars text m) m = truncate_chars text m :=
  truncate_chars_idem text m h

/-- Claim C10 witness: idempotence at the concrete text `"hello brave world"`
and limit `7`. -/
theorem claim_C10_witness :
    (0 : Int) ≤ 7 ∧
    truncate_chars (truncate_chars "hello brave world".toList 7) 7 =
      truncate_chars "hello brave world".toList 7 :=
  ⟨by decide, claim_C10_amended_idempotent "hello brave world".toList 7 (by decide)⟩

/-- Claim C8 counterexample: for the text of ten `a`s and limit 9 the
hard-truncation branch is taken (truncation needed, no separator found, no
whitespace past one-third of the limit), yet the result `"aaaaaaaaa..."`
has 12 > 9 characters, because the code appends the three-character
ellipsis after cutting at the limit. -/
theorem claim_C8_counterexample :
    (strip_ws (List.replicate 10 'a') ≠ [] ∧
     ¬ ((strip_ws (List.replicate 10 'a')).length : Int) ≤ 9 ∧
     sepLoop (pySlice (strip_ws (List.replicate 10 'a')) 9) (Int.fdiv 9 3) seps = none ∧
     ¬ Int.fdiv 9 3 < pyRfind (pySlice (strip_ws (List.replicate 10 'a')) 9) [' ']) ∧
    ¬ (truncate_at_sentence (List.replicate 10 'a') 9).length ≤ 9 := by decide

/-- Claim C8 (amended): in the hard-truncation branch (truncation needed,
no qualifying separator, no whitespace boundary past one-third of the
limit) the result is the rstripped chunk with the ellipsis appended, and
its length is at most `limit + 3`. -/
theorem claim_C8_amended_hard_branch (text : List Char) (limit : Int)
    (h0 : 0 ≤ limit)
    (h1 : strip_ws text ≠ [])
    (h2 : ¬ ((strip_ws text).length : Int) ≤ limit)
    (h3 : sepLoop (pySlice (strip_ws text) limit) (Int.fdiv limit 3) seps = none)
    (h4 : ¬ Int.fdiv limit 3 < pyRfind (pySlice (strip_ws text) limit) [' ']) :
    truncate_at_sentence text limit =
      rstrip (pySlice (strip_ws text) limit) ++ "...".toList ∧
    (truncate_at_sentence text limit).length ≤ limit.toNat + 3 := by
  constructor
  · simp only [truncate_at_sentence]
    rw [if_neg h1, if_neg h2, h3, if_neg h4]
  · exact truncate_at_sentence_length text limit h0

/-- Claim C8 witness: the amended bound at the ten-`a` input with limit 9:
the result is exactly the hard truncation with ellipsis, of length 12 ≤ 12. -/
theorem claim_C8_witness :
    (truncate_at_sentence (List.replicate 10 'a') 9 =
      rstrip (pySlice (strip_ws (List.replicate 10 'a')) 9) ++ "...".toList ∧
    (truncate_at_sentence (List.replicate 10 'a') 9).length ≤ (9 : Int).toNat + 3) :=
  claim_C8_amended_hard_branch (List.replicate 10 'a') 9 (by decide) (by decide)
    (by decide) (by decide) (by decide)

/-- Claim C6 counterexample: when the parsed embedded JSON is a top-level
sequence containing a mapping that would yield a candidate, the strategy
returns no candidates at all — line 135 replaces a non-dict top-level value
with the empty mapping — although walking the parsed value itself would
have produced the candidate. -/
theorem claim_C6_counterexample :
    next_data_stage (some (JValue.arr [JValue.obj
      [("title".toList, JValue.str "Sample Paper Title".toList),
       ("arxivId".toList, JValue.str "1234.56789".toList)]])) = [] ∧
    extract_candidates_from_next_data (JValue.arr [JValue.obj
      [("title".toList, JValue.str "Sample Paper Title".toList),
       ("arxivId".toList, JValue.str "1234.56789".toList)]]) =
      [("1234.56789".toList, "Sample Paper Title".toList, none)] := by decide

/-- Claim C6 (amended): after a successful parse, the strategy considers
every mapping node of the depth-first walk only when the top-level parsed
value is itself a mapping; when the top-level value is not a mapping (for
example a sequence containing mappings), it substitutes an empty mapping
and yields no candidates. -/
theorem claim_C6_amended_top_level_mapping_only (parsed : JValue) :
    (∀ o, parsed = JValue.obj o →
      next_data_stage (some parsed) =
        dedupLongest candTitleLen ((walk_json parsed).filterMap candOfNode)) ∧
    ((∀ o, parsed ≠ JValue.obj o) → next_data_stage (some parsed) = []) := by
  constructor
  · rintro o rfl
    rfl
  · intro h
    cases parsed with
    | obj o => exact absurd rfl (h o)
    | str s => rfl
    | num n => rfl
    | jbool b => rfl
    | null => rfl
    | arr l => rfl

/-- Claim C6 witness: at a top-level mapping the strategy equals the
dedup of the walk's candidates, and at a top-level sequence it is empty. -/
theorem claim_C6_witness :
    (JValue.obj [("title".toList, JValue.str "Sample Paper Title".toList),
        ("arxivId".toList, JValue.str "1234.56789".toList)] =
      JValue.obj [("title".toList, JValue.str "Sample Paper Title".toList),
        ("arxivId".toList, JValue.str "1234.56789".toList)] →
      next_data_stage (some (JValue.obj
        [("title".toList, JValue.str "Sample Paper Title".toList),
         ("arxivId".toList, JValue.str "1234.56789".toList)])) =
        dedupLongest candTitleLen ((walk_json (JValue.obj
          [("title".toList, JValue.str "Sample Paper Title".toList),
           ("arxivId".toList, JValue.str "1234.56789".toList)])).filterMap candOfNode)) ∧
    ((∀ o, JValue.arr [JValue.null] ≠ JValue.obj o) →
      next_data_stage (some (JValue.arr [JValue.null])) = []) :=
  ⟨fun _ => (claim_C6_amended_top_level_mapping_only _).1 _ rfl,
   (claim_C6_amended_top_level_mapping_only (JValue.arr [JValue.null])).2⟩

/-- Claim C4: for every configuration, oracle behaviour and input list, the
mapping returned by `summarize_batch` has pairwise-distinct keys (at most
one entry per identifier) and every key is the identifier of some input
request. -/
theorem claim_C4_unique_keys_from_input (aiOk : Bool) (callAI : Nat → Except Unit SDict)
    (mc : Int) (reqs : List PaperSummaryRequest) :
    ((summarize_batch aiOk callAI mc reqs).1.map Prod.fst).Nodup ∧
    ∀ k ∈ (summarize_batch aiOk callAI mc reqs).1.map Prod.fst, ∃ r ∈ reqs, r.key = k := by
  by_cases hne : reqs = []
  · subst hne
    have h0 : summarize_batch aiOk callAI mc [] = ([], none) := by
      simp [summarize_batch]
    rw [h0]
    exact ⟨by simp, fun k hk => by simp at hk⟩
  · cases aiOk with
    | false =>
      have hout : (summarize_batch false callAI mc reqs).1 =
          reqs.foldl (fun o r =>
            let fb := fallback_summary r
            if fb = [] then o else dset o r.key fb) [] := by
        rw [summarize_batch_noai callAI mc reqs hne]
      rw [hout]
      refine ⟨noai_fold_keys_nodup reqs [] (by simp), fun k hk => ?_⟩
      rcases noai_fold_keys_sub reqs [] k hk with h | h
      · exact h
      · simp at h
    | true =>
      have hout : (summarize_batch true callAI mc reqs).1 =
          (processBatches callAI mc reqs 0 (chunksOf BATCH_SIZE (prepKeys reqs))
            ([], false)).1 := by
        rw [summarize_batch_ai callAI mc reqs hne]
      rw [hout]
      refine ⟨processBatches_keys_nodup callAI mc reqs _ 0 ([], false) (by simp),
        fun k hk => ?_⟩
      rcases processBatches_keys_sub callAI mc reqs _ 0 ([], false) k hk with
        ⟨bk, hbk, hkbk⟩ | h
      · have hkeys : k ∈ prepKeys reqs :=
          chunksFuel_sub BATCH_SIZE (prepKeys reqs).length (prepKeys reqs) bk hbk k hkbk
        exact (mem_prepKeys reqs k).mp hkeys
      · simp at h

set_option maxRecDepth 4000 in
/-- Claim C2 counterexample: with an unusable capability and a request whose
abstract is 150 characters long, the returned value for that identifier is
the 150-character fallback — longer than the configured budget of 100 —
because the fallback path truncates at `FALLBACK_MAX_CHARS = 200`, not at
`max_chars`. -/
theorem claim_C2_counterexample :
    dget (summarize_batch false (fun _ => Except.error ()) 100
      [⟨"k1".toList, [], List.replicate 150 'a'⟩]).1 "k1".toList =
      some (List.replicate 150 'a') ∧
    ¬ (List.replicate 150 'a').length ≤ 100 := by decide

/-- Claim C2 (amended): with the default budget of 100 characters, every
value of the returned mapping has at most 203 characters (AI-path values
are truncated to 100; fallback values are bounded by the local budget 200
plus a 3-character ellipsis) and contains no line-break characters. -/
theorem claim_C2_amended_value_bounds (aiOk : Bool) (callAI : Nat → Except Unit SDict)
    (reqs : List PaperSummaryRequest) (k : Key) (v : List Char)
    (h : (k, v) ∈ (summarize_batch aiOk callAI 100 reqs).1) :
    v.length ≤ 203 ∧ noLB v := by
  have hfb : ∀ r, (fallback_summary r).length ≤ 203 ∧ noLB (fallback_summary r) :=
    fun r => ⟨fallback_length_le r, fallback_noLB r⟩
  have hai : ∀ w, (truncate_chars w (100 : Int)).length ≤ 203 ∧
      noLB (truncate_chars w (100 : Int)) := by
    intro w
    refine ⟨?_, truncate_chars_noLB w 100⟩
    have := truncate_chars_length w 100 (by omega)
    have h100 : ((100 : Int)).toNat = 100 := rfl
    omega
  have hP : ∀ p ∈ (summarize_batch aiOk callAI 100 reqs).1,
      (fun w => w.length ≤ 203 ∧ noLB w) p.2 := by
    by_cases hne : reqs = []
    · subst hne
      have h0 : summarize_batch aiOk callAI 100 [] = ([], none) := by
        simp [summarize_batch]
      rw [h0]
      intro p hp
      simp at hp
    · cases aiOk with
      | false =>
        have hout : (summarize_batch false callAI 100 reqs).1 =
            reqs.foldl (fun o r =>
              let fb := fallback_summary r
              if fb = [] then o else dset o r.key fb) [] := by
          rw [summarize_batch_noai callAI 100 reqs hne]
        rw [hout]
        exact noai_fold_values (fun w => w.length ≤ 203 ∧ noLB w) reqs hfb [] (by simp)
      | true =>
        have hout : (summarize_batch true callAI 100 reqs).1 =
            (processBatches callAI 100 reqs 0 (chunksOf BATCH_SIZE (prepKeys reqs))
              ([], false)).1 := by
          rw [summarize_batch_ai callAI 100 reqs hne]
        rw [hout]
        exact processBatches_values (fun w => w.length ≤ 203 ∧ noLB w) callAI 100 reqs hfb hai _ 0 ([], false) (by simp)
  exact hP (k, v) h

/-- Claim C2 witness: the amended bounds at a concrete fallback entry. -/
theorem claim_C2_witness :
    (("k1".toList, ['a']) ∈ (summarize_batch false (fun _ => Except.error ()) 100
      [⟨"k1".toList, [], ['a']⟩]).1) ∧
    (('a' :: ([] : List Char)).length ≤ 203 ∧ noLB ['a']) :=
  ⟨by decide,
   claim_C2_amended_value_bounds false (fun _ => Except.error ())
     [⟨"k1".toList, [], ['a']⟩] "k1".toList ['a'] (by decide)⟩

/-- Claim C3: when configuration validation reports the capability unusable
and the input is non-empty, the returned mapping has an entry for exactly
those requests whose abstract or title is non-empty after whitespace
normalization, the degradation flag is set to true, and the result is
independent of the chat oracle (the capability is never invoked). -/
theorem claim_C3_unusable_config (callAI : Nat → Except Unit SDict) (mc : Int)
    (reqs : List PaperSummaryRequest) (hne : reqs ≠ []) :
    (∀ k, (dget (summarize_batch false callAI mc reqs).1 k).isSome ↔
        ∃ r ∈ reqs, r.key = k ∧ (strip_ws r.abstract ≠ [] ∨ strip_ws r.title ≠ [])) ∧
    (summarize_batch false callAI mc reqs).2 = some true ∧
    ∀ callAI2, summarize_batch false callAI mc reqs = summarize_batch false callAI2 mc reqs := by
  have hout : (summarize_batch false callAI mc reqs).1 =
      reqs.foldl (fun o r =>
        let fb := fallback_summary r
        if fb = [] then o else dset o r.key fb) [] := by
    rw [summarize_batch_noai callAI mc reqs hne]
  have hflag : (summarize_batch false callAI mc reqs).2 = some true := by
    rw [summarize_batch_noai callAI mc reqs hne]
  refine ⟨?_, hflag, ?_⟩
  · intro k
    rw [hout, dget_noai_fold reqs [] k]
    constructor
    · rintro (⟨r, hr, hk, hfb⟩ | h)
      · refine ⟨r, hr, hk, ?_⟩
        by_contra hcon
        push_neg at hcon
        exact hfb ((fallback_eq_nil_iff r).mpr ⟨hcon.1, hcon.2⟩)
      · simp at h
    · rintro ⟨r, hr, hk, hab⟩
      left
      refine ⟨r, hr, hk, fun hfb => ?_⟩
      rcases hab with h | h
      · exact h ((fallback_eq_nil_iff r).mp hfb).1
      · exact h ((fallback_eq_nil_iff r).mp hfb).2
  · intro callAI2
    rw [summarize_batch_noai callAI mc reqs hne, summarize_batch_noai callAI2 mc reqs hne]

/-- Claim C3 witness: two concrete requests, one with a usable title and one
with both fields empty, under an always-raising oracle. -/
theorem claim_C3_witness :
    ([(⟨"k1".toList, "Title A".toList, []⟩ : PaperSummaryRequest),
      ⟨"k2".toList, [], []⟩] ≠ []) ∧
    ((∀ k, (dget (summarize_batch false (fun _ => Except.error ()) 100
        [(⟨"k1".toList, "Title A".toList, []⟩ : PaperSummaryRequest),
         ⟨"k2".toList, [], []⟩]).1 k).isSome ↔
        ∃ r ∈ [(⟨"k1".toList, "Title A".toList, []⟩ : PaperSummaryRequest),
          ⟨"k2".toList, [], []⟩], r.key = k ∧
            (strip_ws r.abstract ≠ [] ∨ strip_ws r.title ≠ [])) ∧
      (summarize_batch false (fun _ => Except.error ()) 100
        [(⟨"k1".toList, "Title A".toList, []⟩ : PaperSummaryRequest),
         ⟨"k2".toList, [], []⟩]).2 = some true ∧
      ∀ callAI2, summarize_batch false (fun _ => Except.error ()) 100
          [(⟨"k1".toList, "Title A".toList, []⟩ : PaperSummaryRequest),
           ⟨"k2".toList, [], []⟩] =
        summarize_batch false callAI2 100
          [(⟨"k1".toList, "Title A".toList, []⟩ : PaperSummaryRequest),
           ⟨"k2".toList, [], []⟩]) :=
  ⟨by decide,
   claim_C3_unusable_config (fun _ => Except.error ()) 100
     [⟨"k1".toList, "Title A".toList, []⟩, ⟨"k2".toList, [], []⟩] (by decide)⟩

/-- Claim C5 counterexample: with an unusable capability and a request whose
abstract and title are both empty, the identifier is omitted from the
returned mapping entirely (the mapping is empty) instead of being mapped to
the empty string as the claim states. -/
theorem claim_C5_counterexample :
    (summarize_batch false (fun _ => Except.error ()) 100
      [⟨"k1".toList, [], []⟩]).1 = [] ∧
    dget (summarize_batch false (fun _ => Except.error ()) 100
      [⟨"k1".toList, [], []⟩]).1 "k1".toList ≠ some [] := by decide

/-- Claim C5 (amended): when the capability is unusable and every request
carrying a given identifier has empty abstract and title after whitespace
normalization, the returned mapping has no entry for that identifier (the
lookup yields `none`); the call still returns normally. -/
theorem claim_C5_amended_identifier_omitted (callAI : Nat → Except Unit SDict)
    (mc : Int) (reqs : List PaperSummaryRequest) (k : Key)
    (hall : ∀ r ∈ reqs, r.key = k → strip_ws r.abstract = [] ∧ strip_ws r.title = []) :
    dget (summarize_batch false callAI mc reqs).1 k = none := by
  by_cases hne : reqs = []
  · subst hne
    have h0 : summarize_batch false callAI mc [] = ([], none) := by
      simp [summarize_batch]
    rw [h0]
    rfl
  · have hout : (summarize_batch false callAI mc reqs).1 =
        reqs.foldl (fun o r =>
          let fb := fallback_summary r
          if fb = [] then o else dset o r.key fb) [] := by
      rw [summarize_batch_noai callAI mc reqs hne]
    rw [hout]
    apply Option.not_isSome_iff_eq_none.mp
    rw [dget_noai_fold reqs [] k]
    rintro (⟨r, hr, hk, hfb⟩ | h)
    · exact hfb ((fallback_eq_nil_iff r).mpr (hall r hr hk))
    · simp at h

/-- Claim C5 witness: the amended behaviour at the concrete empty request. -/
theorem claim_C5_witness :
    (∀ r ∈ [(⟨"k1".toList, [], []⟩ : PaperSummaryRequest)], r.key = "k1".toList →
      strip_ws r.abstract = [] ∧ strip_ws r.title = []) ∧
    dget (summarize_batch false (fun _ => Except.error ()) 100
      [⟨"k1".toList, [], []⟩]).1 "k1".toList = none :=
  ⟨by decide,
   claim_C5_amended_identifier_omitted (fun _ => Except.error ()) 100
     [⟨"k1".toList, [], []⟩] "k1".toList (by decide)⟩

/-- Claim C1: if the chat call raises for exactly one batch while the calls
for the other batches succeed (returning a non-empty normalized value for
each identifier of their batch), then every identifier of the failing batch
is mapped to the local fallback summary of its request, every identifier of
the other batches is mapped to its AI-derived summary (normalized and
truncated to the budget), and the degradation flag is true — for every
input list, partitioned in order into batches of `BATCH_SIZE = 10`. -/
theorem claim_C1_failing_batch_isolation
    (reqs : List PaperSummaryRequest) (callAI : Nat → Except Unit SDict) (mc : Int)
    (f : Nat) (bkf : List Key)
    (hbf : (chunksOf BATCH_SIZE (prepKeys reqs)).get? f = some bkf)
    (hfail : callAI f = Except.error ())
    (hok : ∀ (n : Nat) (bk : List Key),
      (chunksOf BATCH_SIZE (prepKeys reqs)).get? n = some bk → n ≠ f →
      ∃ d, callAI n = Except.ok d ∧ ∀ k ∈ bk, aiVal d k ≠ []) :
    (∀ k ∈ bkf, ∃ r, lastReq reqs k = some r ∧
      dget (summarize_batch true callAI mc reqs).1 k = some (fallback_summary r)) ∧
    (∀ (n : Nat) (bk : List Key) (d : SDict),
      (chunksOf BATCH_SIZE (prepKeys reqs)).get? n = some bk → n ≠ f →
      callAI n = Except.ok d →
      ∀ k ∈ bk, dget (summarize_batch true callAI mc reqs).1 k =
        some (truncate_chars (aiVal d k) mc)) ∧
    (summarize_batch true callAI mc reqs).2 = some true := by
  have hne : reqs ≠ [] := by
    intro h
    subst h
    rw [show chunksOf BATCH_SIZE (prepKeys ([] : List PaperSummaryRequest)) = []
      from rfl] at hbf
    simp at hbf
  have hout : (summarize_batch true callAI mc reqs).1 =
      (processBatches callAI mc reqs 0 (chunksOf BATCH_SIZE (prepKeys reqs))
        ([], false)).1 := by
    rw [summarize_batch_ai callAI mc reqs hne]
  have hflag : (summarize_batch true callAI mc reqs).2 =
      some (processBatches callAI mc reqs 0 (chunksOf BATCH_SIZE (prepKeys reqs))
        ([], false)).2 := by
    rw [summarize_batch_ai callAI mc reqs hne]
  have hflat : (chunksOf BATCH_SIZE (prepKeys reqs)).flatten = prepKeys reqs :=
    chunksOf_flatten BATCH_SIZE (by decide) _
  have hnd : (chunksOf BATCH_SIZE (prepKeys reqs)).flatten.Nodup := by
    rw [hflat]
    exact nodup_prepKeys reqs
  have hmemreq : ∀ (n : Nat) (bk : List Key),
      (chunksOf BATCH_SIZE (prepKeys reqs)).get? n = some bk → ∀ k ∈ bk,
      ∃ r, lastReq reqs k = some r := by
    intro n bk hn k hk
    have hkflat : k ∈ (chunksOf BATCH_SIZE (prepKeys reqs)).flatten :=
      List.mem_flatten.mpr ⟨bk, List.get?_mem hn, hk⟩
    rw [hflat, mem_prepKeys] at hkflat
    exact Option.isSome_iff_exists.mp ((lastReq_isSome_iff reqs k).mpr hkflat)
  have huniq : ∀ (n : Nat) (bk : List Key),
      (chunksOf BATCH_SIZE (prepKeys reqs)).get? n = some bk → ∀ k ∈ bk,
      ∀ (i : Nat) (bk2 : List Key),
        (chunksOf BATCH_SIZE (prepKeys reqs)).get? i = some bk2 → i ≠ n → k ∉ bk2 := by
    intro n bk hn k hk i bk2 hi hin
    exact nodup_flatten_disjoint (chunksOf BATCH_SIZE (prepKeys reqs)) hnd n i bk bk2
      hn hi (fun h => hin h.symm) k hk
  refine ⟨?_, ?_, ?_⟩
  · intro k hk
    obtain ⟨r, hr⟩ := hmemreq f bkf hbf k hk
    have hbr : dget (batchReqs reqs bkf) k = some r := by
      rw [dget_batchReqs reqs bkf k hk]
      exact hr
    refine ⟨r, hr, ?_⟩
    rw [hout, processBatches_fst_in callAI mc reqs (chunksOf BATCH_SIZE (prepKeys reqs))
      f bkf 0 ([], false) k r hbf hk (huniq f bkf hbf k hk) hbr,
      Nat.zero_add, hfail]
  · intro n bk d hn hnf hcd k hk
    obtain ⟨r, hr⟩ := hmemreq n bk hn k hk
    have hbr : dget (batchReqs reqs bk) k = some r := by
      rw [dget_batchReqs reqs bk k hk]
      exact hr
    obtain ⟨d2, hd2, hvals⟩ := hok n bk hn hnf
    rw [hcd] at hd2
    injection hd2 with hd2
    have hv : aiVal d k ≠ [] := by
      rw [hd2]
      exact hvals k hk
    rw [hout, processBatches_fst_in callAI mc reqs (chunksOf BATCH_SIZE (prepKeys reqs))
      n bk 0 ([], false) k r hn hk (huniq n bk hn k hk) hbr, Nat.zero_add, hcd]
    show (if aiVal d k = [] then some (fallback_summary r)
      else some (truncate_chars (aiVal d k) mc)) = some (truncate_chars (aiVal d k) mc)
    rw [if_neg hv]
  · rw [hflag, processBatches_snd_error callAI mc reqs
      (chunksOf BATCH_SIZE (prepKeys reqs)) f bkf 0 ([], false) () hbf
      (by rw [Nat.zero_add]; exact hfail)]

/-- Claim C1 witness: eleven requests form two batches; the oracle raises on
batch 0 and answers batch 1, so batch 0's ten identifiers all carry their
fallback summaries, batch 1's identifier carries the AI-derived summary,
and the flag is true. -/
theorem claim_C1_witness :
    ((chunksOf BATCH_SIZE (prepKeys exampleReqs)).get? 0 =
      some ["a0".toList, "a1".toList, "a2".toList, "a3".toList, "a4".toList,
        "a5".toList, "a6".toList, "a7".toList, "a8".toList, "a9".toList]) ∧
    exampleOracle 0 = Except.error () ∧
    ((∀ k ∈ ["a0".toList, "a1".toList, "a2".toList, "a3".toList, "a4".toList,
        "a5".toList, "a6".toList, "a7".toList, "a8".toList, "a9".toList],
      ∃ r, lastReq exampleReqs k = some r ∧
        dget (summarize_batch true exampleOracle 100 exampleReqs).1 k =
          some (fallback_summary r)) ∧
    (∀ (n : Nat) (bk : List Key) (d : SDict),
      (chunksOf BATCH_SIZE (prepKeys exampleReqs)).get? n = some bk → n ≠ 0 →
      exampleOracle n = Except.ok d →
      ∀ k ∈ bk, dget (summarize_batch true exampleOracle 100 exampleReqs).1 k =
        some (truncate_chars (aiVal d k) 100)) ∧
    (summarize_batch true exampleOracle 100 exampleReqs).2 = some true) := by
  refine ⟨by decide, rfl, ?_⟩
  apply claim_C1_failing_batch_isolation exampleReqs exampleOracle 100 0
    ["a0".toList, "a1".toList, "a2".toList, "a3".toList, "a4".toList,
     "a5".toList, "a6".toList, "a7".toList, "a8".toList, "a9".toList]
    (by decide) rfl
  intro n bk hn hnf
  refine ⟨[("b10".toList, "hello".toList)], ?_, ?_⟩
  · show (if n = 0 then Except.error () else
      Except.ok [("b10".toList, "hello".toList)]) = _
    rw [if_neg hnf]
  · intro k hk
    have hn2 : n < 2 := by
      by_contra hc
      push_neg at hc
      have hlen : (chunksOf BATCH_SIZE (prepKeys exampleReqs)).length = 2 := by decide
      have hnone : (chunksOf BATCH_SIZE (prepKeys exampleReqs)).get? n = none :=
        List.get?_eq_none.mpr (by omega)
      rw [hnone] at hn
      exact Option.noConfusion hn
    interval_cases n
    · exact absurd rfl hnf
    · have h1 : (chunksOf BATCH_SIZE (prepKeys exampleReqs)).get? 1 =
          some ["b10".toList] := by decide
      rw [h1, Option.some.injEq] at hn
      subst hn
      rw [List.mem_singleton] at hk
      subst hk
      decide
